import Mathlib

set_option maxHeartbeats 1000000

/-!
Shallow embedding of the micro-ssg compiler (`src/lib.ts`).

The compiler reads a source tree (pages, data, partials, helpers), renders each
Handlebars page with merged data, and writes one HTML file per page.  File
systems are modelled as association lists from path to file text, the
process-global Handlebars registries (`Handlebars.partials`, helpers) as
association lists threaded explicitly through the functions that mutate them,
and the unbounded recursion of `registerPartials` with an explicit fuel
parameter (`none` = the recursion exceeded the fuel, i.e. did not terminate
within that call-stack budget).  External collaborators (the Handlebars render
engine, JSON/YAML decoders, the markdown renderer, module loading) are opaque
function parameters, exactly as the spec treats them.
-/

namespace MicroSSG

/-! ## Association lists with JavaScript object semantics -/

/-- First-match lookup; registries below are built by prepending, so the most
recent binding for a key wins, matching assignment to a JS object key. -/
def lookupKV {α : Type} (k : String) : List (String × α) → Option α
  | [] => none
  | (k', v) :: rest => if k' = k then some v else lookupKV k rest

/-- JS object property assignment `o[k] = v`: replace an existing key in
place, otherwise append the new key at the end (JS property order). -/
def setKV {α : Type} (k : String) (v : α) : List (String × α) → List (String × α)
  | [] => [(k, v)]
  | (k', v') :: rest => if k' = k then (k, v) :: rest else (k', v') :: setKV k v rest

def keysOf {α : Type} (l : List (String × α)) : List String := l.map Prod.fst

/-! ## Path helpers (`path.basename`, `path.parse(..).ext` / `.name`)

Paths produced by the compiler's `join` are forward-slash normalized, so the
separator is always `/`. -/

def basenameOf (p : String) : String :=
  ((p.data.reverse.takeWhile (fun c => c ≠ '/')).reverse).asString

/-- `path.parse(p).ext`: the (dot-included) extension of the basename, empty
for dotless names and for names whose only dot is the leading one. -/
def extOf (p : String) : String :=
  let b := (basenameOf p).data
  let t := b.reverse.takeWhile (fun c => c ≠ '.')
  if t.length = b.length then ""
  else if t.length + 1 = b.length then ""
  else ('.' :: t.reverse).asString

/-- `path.parse(p).name`: the basename without its extension. -/
def stemOf (p : String) : String :=
  let b := (basenameOf p).data
  let e := (extOf p).data
  (b.take (b.length - e.length)).asString

/-- The directory part of a path (everything before the final slash); a glob
`dir/*.ext` only matches files directly inside `dir`. -/
def dirOf (p : String) : String :=
  match p.data.reverse.dropWhile (fun c => c ≠ '/') with
  | [] => ""
  | _ :: rest => rest.reverse.asString

/-! ## The partial-reference scanner

`registerPartials` scans the template text with the regex
`(?<!["'\x60])\x7b\x7b>\s*([^\s\x7d]+)` (global): every occurrence of the
block-opening delimiter followed by `>` whose first character is not directly
preceded by a quote character, capturing the following whitespace-delimited
name.  The scanner below walks the character list with one character of
lookbehind; `fuel` is a step bound instantiated with the text length (every
step consumes at least one character, so the bound is never hit). -/

def isJsSpace (c : Char) : Bool :=
  c = ' ' || c = '\t' || c = '\n' || c = '\r' || c = '\x0b' || c = '\x0c'

def isQuoteChar (c : Char) : Bool :=
  c = '"' || c = '\x27' || c = '\x60'

/-- A character that the capture group `[^\s\x7d]+` accepts. -/
def isNameChar (c : Char) : Bool :=
  !(isJsSpace c) && c ≠ '\x7d'

def scanAux : Nat → Option Char → List Char → List String
  | 0, _, _ => []
  | _ + 1, _, [] => []
  | fuel + 1, prev, '\x7b' :: '\x7b' :: '>' :: rest =>
    if (prev.map isQuoteChar).getD false then
      scanAux fuel (some '\x7b') ('\x7b' :: '>' :: rest)
    else
      let afterWs := rest.dropWhile isJsSpace
      let nm := afterWs.takeWhile isNameChar
      if nm.isEmpty then
        scanAux fuel (some '\x7b') ('\x7b' :: '>' :: rest)
      else
        -- the source applies `.trim()` to the capture; the capture group
        -- `[^\s\x7d]+` admits no whitespace, so the trim is the identity
        (nm.asString) :: scanAux fuel (nm.getLast?) (afterWs.dropWhile isNameChar)
  | fuel + 1, _, c :: cs => scanAux fuel (some c) cs

/-- All partial names referenced by a template text, in scan order
(`pageText.matchAll(...)`, first capture of each match, trimmed). -/
def scanNames (text : String) : List String :=
  scanAux text.data.length none text.data

/-! ## `registerPartials`

`Handlebars.partials` is modelled as an association list; it is global state
in the real program, so every function that touches it takes it and returns
it explicitly.  The trace records each `readFileToString` of a partial file
(`Event.load`) and each `Handlebars.registerPartial` (`Event.register`), so
"loaded / registered exactly once" are statements about the trace. -/

inductive Event where
  | load (name : String)
  | register (name text : String)
deriving DecidableEq

/-- The registry (`Handlebars.partials`) plus the observation trace. -/
structure PState where
  reg : List (String × String)
  trace : List Event
deriving DecidableEq

/-- The glob `join(partialsPath, name + ".\x7bhbs,handlebars\x7d")`: select the
files of the partials directory listing matching either synonymous
extension. -/
def findPartialFiles (fs : List (String × String)) (ppath name : String) :
    List (String × String) :=
  fs.filter (fun f =>
    f.1 = ppath ++ "/" ++ name ++ ".hbs" || f.1 = ppath ++ "/" ++ name ++ ".handlebars")

/-- The `for (const [, capture] of matches)` loop body of `registerPartials`,
parametric in the recursive resolution of a loaded partial's own text
(`resolve`), so that the fueled recursion below stays structural. -/
def regLoop (fs : List (String × String)) (ppath : String)
    (resolve : String → PState → Option (Except String PState)) :
    List String → PState → Option (Except String PState)
  | [], st => some (Except.ok st)
  | n :: ns, st =>
    if (lookupKV n st.reg).isSome then
      regLoop fs ppath resolve ns st
    else
      match findPartialFiles fs ppath n with
      | [] =>
        some (Except.error ("Could not find Handlebars file for partial '" ++ n ++ "'."))
      | [(_, ptext)] =>
        match resolve ptext { st with trace := st.trace ++ [Event.load n] } with
        | none => none
        | some (Except.error e) => some (Except.error e)
        | some (Except.ok st1) =>
          regLoop fs ppath resolve ns
            { reg := (n, ptext) :: st1.reg, trace := st1.trace ++ [Event.register n ptext] }
      | _ :: _ :: _ =>
        some (Except.error ("Found more than one file for partial '" ++ n ++ "'."))

/-- `registerPartials(partialsPath, pageText)`: scan the text, and for every
captured name not already in the registry, find its unique partial file,
load it, recursively resolve the loaded text, then register it.  `fuel`
bounds the recursion depth; the real recursion is unbounded, so `none` means
the call did not return within any stack of that depth. -/
def registerPartials : Nat → List (String × String) → String → String → PState →
    Option (Except String PState)
  | 0, _, _, _, _ => none
  | fuel + 1, fs, ppath, text, st =>
    regLoop fs ppath (registerPartials fuel fs ppath) (scanNames text) st

/-! ## Data records (`getData`, `parseData`)

Decoded JSON/YAML documents are modelled by `Value`; the JSON and YAML
decoders and the markdown renderer are opaque format decoders supplied as
function parameters (spec §6). -/

inductive Value where
  | null
  | bool (b : Bool)
  | num (n : Int)
  | str (s : String)
  | arr (elems : List Value)
  | obj (fields : List (String × Value))

/-- JavaScript `String.prototype.trim`, restricted to the ASCII whitespace
characters that `isJsSpace` recognises. -/
def jsTrim (s : String) : String :=
  (((s.data.dropWhile isJsSpace).reverse.dropWhile isJsSpace).reverse).asString

def asciiLower (c : Char) : Char :=
  if 'A' ≤ c ∧ c ≤ 'Z' then Char.ofNat (c.toNat + 32) else c

/-- JavaScript `String.prototype.toLowerCase()`, restricted to ASCII (the
extensions dispatched on below are ASCII). -/
def jsToLowerCase (s : String) : String :=
  (s.data.map asciiLower).asString

/-- `parseData(rawData, extension)`: dispatch on the lower-cased extension.
JSON and YAML are decoded by their opaque decoders; the markdown family
renders to HTML (the `marked` options are internal to the opaque renderer),
trims it, and wraps it under the reserved `_md` field; unknown extensions
yield an empty object. -/
def parseData (jsonParse yamlParse : String → Except String Value)
    (markedRender : String → String) (rawData extension : String) : Except String Value :=
  match jsToLowerCase extension with
  | ".json" => jsonParse rawData
  | ".yml" => yamlParse rawData
  | ".yaml" => yamlParse rawData
  | ".md" => Except.ok (Value.obj [("_md", Value.str (jsTrim (markedRender rawData)))])
  | ".markdown" => Except.ok (Value.obj [("_md", Value.str (jsTrim (markedRender rawData)))])
  | _ => Except.ok (Value.obj [])

def dataExts : List String := [".json", ".yml", ".yaml", ".md", ".markdown"]

/-- The glob `join(dataPath, pageName + ".\x7bjson,yml,yaml,md,markdown\x7d")`. -/
def findDataFiles (fs : List (String × String)) (dataPath pageName : String) :
    List (String × String) :=
  fs.filter (fun f => dataExts.any (fun e => f.1 = dataPath ++ "/" ++ pageName ++ e))

/-- `getData(dataPath, pageName, options)`: zero matching files is absence
(`none`), exactly one is decoded by extension, two or more is an error naming
the page. -/
def getData (jsonParse yamlParse : String → Except String Value)
    (markedRender : String → String) (fs : List (String × String))
    (dataPath pageName : String) : Except String (Option Value) :=
  match findDataFiles fs dataPath pageName with
  | [] => Except.ok none
  | [(p, text)] => (parseData jsonParse yamlParse markedRender text (extOf p)).map some
  | _ :: _ :: _ => Except.error ("Found more than one data file for '" ++ pageName ++ "'.")

/-! ## The render context -/

/-- The own enumerable fields that a JS object spread takes from a data
record; spreading `undefined` (an absent record) contributes nothing. -/
def fieldsOf : Option Value → List (String × Value)
  | some (Value.obj fields) => fields
  | _ => []

/-- Spreading `extra`'s fields into an object that already holds `base`'s
fields: each field is assigned in order, overriding earlier keys. -/
def spreadInto (base extra : List (String × Value)) : List (String × Value) :=
  extra.foldl (fun acc kv => setKV kv.1 kv.2 acc) base

/-- The object literal `\x7b _shared: \x7b ...sharedData \x7d, ...pageData \x7d`
of `compile`: the shared record's fields are cloned under the reserved
`_shared` key, then the page record's own fields are spread at the top
level. -/
def renderContext (sharedData pageData : Option Value) : List (String × Value) :=
  spreadInto [("_shared", Value.obj (fieldsOf sharedData))] (fieldsOf pageData)

/-! ## Compiler options -/

structure CompilerOptions where
  dest : String
  log : Bool
  overwrite : Bool
  tsConfigPath : Option String
  exclude : List String

def defaultOptions : CompilerOptions :=
  { dest := "dist", log := false, overwrite := false, tsConfigPath := none, exclude := [] }

/-! ## The world a compilation run observes

Directory listings are association lists from path to file text; dynamic
module loading, the Handlebars render engine and the format decoders are
opaque capabilities.  `F` is the type of loaded helper callables. -/

structure World (F : Type) where
  srcPath : String
  /-- files under `srcPath/pages` -/
  pagesFs : List (String × String)
  /-- files under `srcPath/partials` -/
  partialsFs : List (String × String)
  /-- files under `srcPath/data` -/
  dataFs : List (String × String)
  /-- paths of files under `srcPath/helpers` -/
  helperFiles : List String
  /-- glob result for `srcPath/_post-build.js` -/
  postBuildJs : List String
  /-- glob result for `srcPath/_post-build.ts` -/
  postBuildTs : List String
  /-- whether `import('ts-node')` succeeds -/
  tsNodeOk : Bool
  /-- `import(helperPath)` followed by taking the default export -/
  loadHelper : String → Except String F
  /-- `import` of the post-build helper module's default export -/
  loadPostBuild : String → Except String (String → String → Except String String)
  /-- the opaque engine: `Handlebars.compile(text)` applied to a context,
  reading the given registries; Handlebars compiles lazily, so template
  errors also surface at this call, inside the try block -/
  render : String → List (String × String) → List (String × F) →
    List (String × Value) → Except String String
  jsonParse : String → Except String Value
  yamlParse : String → Except String Value
  markedRender : String → String
  /-- error code of `mkdir(dest, \x7b recursive: true \x7d)`, `none` if it
  succeeds -/
  mkdirErrCode : Option String

/-! ## Helper registration (`compile`, first phase) -/

def globHelperExt {F : Type} (w : World F) (ext : String) : List String :=
  w.helperFiles.filter (fun p => dirOf p = w.srcPath ++ "/helpers" && extOf p = ext)

/-- The filter `!path.basename(file).startsWith('_')` (the prefix marker is
the single character `_`). -/
def notUnderscore (p : String) : Bool :=
  match (basenameOf p).data with
  | [] => true
  | c :: _ => !(c = '_')

/-- The registration loop: import each helper file and register its default
export under the filename stem (`Handlebars.registerHelper`); a failed import
aborts the run.  Returns the outcome together with the registry and the list
of imported paths as they stand when the loop stops (registration into the
global engine is not rolled back by a later failure). -/
def registerHelpersLoop {F : Type} (load : String → Except String F) :
    List String → List (String × F) → List String →
    Except String Unit × List (String × F) × List String
  | [], reg, imports => (Except.ok (), reg, imports)
  | p :: rest, reg, imports =>
    match load p with
    | Except.error e =>
      (Except.error ("Unable to import helper '" ++ basenameOf p ++
        "', likely due to compiler error:\n" ++ e), reg, imports)
    | Except.ok f => registerHelpersLoop load rest ((stemOf p, f) :: reg) (imports ++ [p])

/-- Lines 106-156 of `compile`: resolve TypeScript support, glob the helper
files of both families, drop underscore-prefixed ones, and register
`[...jsHelpers, ...(tsEnabled ? tsHelpers : [])]` in order.  Finding TS
helpers with TS support disabled only prints to the console and continues. -/
def helpersPhase {F : Type} (w : World F) (opts : CompilerOptions)
    (hreg : List (String × F)) : Except String Unit × List (String × F) × List String :=
  if opts.tsConfigPath.isSome && !w.tsNodeOk then
    (Except.error "Received tsConfigPath option, but failed to import 'ts-node'. Is it installed?",
      hreg, [])
  else
    let tsEnabled := opts.tsConfigPath.isSome
    let tsHelpers := (globHelperExt w ".ts").filter notUnderscore
    let jsHelpers := (globHelperExt w ".js").filter notUnderscore
    let helperPaths := jsHelpers ++ (if tsEnabled then tsHelpers else [])
    registerHelpersLoop w.loadHelper helperPaths hreg []

/-! ## The page render loop -/

/-- The glob `join(paths.pages, '*.\x7bhbs,handlebars\x7d')`. -/
def pagesGlob {F : Type} (w : World F) : List (String × String) :=
  w.pagesFs.filter (fun f =>
    dirOf f.1 = w.srcPath ++ "/pages" && (extOf f.1 = ".hbs" || extOf f.1 = ".handlebars"))

/-- Lines 166-192 of `compile`: for each discovered page, skip it when its
stem or basename is excluded, register the partials its text references,
load its data record, and render it into the `renders` map; the partial
registry (`PState`) is the global engine state threaded through the loop.
`none` propagates a non-terminating partial resolution. -/
def rendersPhase {F : Type} (fuel : Nat) (w : World F) (opts : CompilerOptions)
    (hreg : List (String × F)) (sharedData : Option Value) :
    List (String × String) → List (String × String) → PState →
    Option (Except String (List (String × String)) × PState)
  | [], renders, pst => some (Except.ok renders, pst)
  | (pagePath, pageText) :: rest, renders, pst =>
    let pageName := stemOf pagePath
    let baseName := basenameOf pagePath
    if opts.exclude.any (fun ex => ex = pageName || ex = baseName) then
      rendersPhase fuel w opts hreg sharedData rest renders pst
    else
      match registerPartials fuel w.partialsFs (w.srcPath ++ "/partials") pageText pst with
      | none => none
      | some (Except.error e) => some (Except.error e, pst)
      | some (Except.ok pst1) =>
        match getData w.jsonParse w.yamlParse w.markedRender w.dataFs
            (w.srcPath ++ "/data") pageName with
        | Except.error e => some (Except.error e, pst1)
        | Except.ok pageData =>
          match w.render pageText pst1.reg hreg (renderContext sharedData pageData) with
          | Except.error msg =>
            some (Except.error ("An error occurred while rendering page '" ++ pageName ++
              "':\n" ++ msg), pst1)
          | Except.ok output =>
            rendersPhase fuel w opts hreg sharedData rest (setKV pageName output renders) pst1

/-! ## The post-build phase -/

/-- The `for (const [pageName, pageContent] of renders)` loop re-setting each
render to the post-build helper's output. -/
def applyPostBuildLoop (pb : String → String → Except String String) :
    List (String × String) → Except String (List (String × String))
  | [] => Except.ok []
  | (n, c) :: rest =>
    match pb n c with
    | Except.error e =>
      Except.error ("An error occurred running the post-build helper on page '" ++ n ++
        "':\n" ++ e)
    | Except.ok c2 => (applyPostBuildLoop pb rest).map (fun r => (n, c2) :: r)

/-- Lines 194-224 of `compile`: at most one `_post-build` module; two
candidates (JS and TS) are an error, one is imported and applied to every
render, zero is a no-op. -/
def postPhase {F : Type} (w : World F) (renders : List (String × String)) :
    Except String (List (String × String)) :=
  let helperCount := w.postBuildJs.length + w.postBuildTs.length
  if helperCount > 1 then
    Except.error "Cannot use more than one _post-build helper: found JS and TS."
  else
    match w.postBuildJs ++ w.postBuildTs with
    | [] => Except.ok renders
    | helperPath :: _ =>
      match w.loadPostBuild helperPath with
      | Except.error e => Except.error ("Could not import post-build helper:\n" ++ e)
      | Except.ok pb => applyPostBuildLoop pb renders

/-! ## The output writer -/

/-- `fs.writeFile(path, text, \x7b flag \x7d)` over the destination file map:
flag `wx` (overwrite disabled) fails with `EEXIST` when the path exists; flag
`w` truncates and replaces. -/
def writeFileFlagged (overwrite : Bool) (path text : String)
    (fs : List (String × String)) : Except String (List (String × String)) :=
  if !overwrite && (lookupKV path fs).isSome then Except.error "EEXIST"
  else Except.ok (setKV path text fs)

/-- Lines 245-263 of `compile`: write one rendered page to
`join(options.dest, pageName + ".html")`, rewording an `EEXIST` failure and
re-throwing anything else. -/
def writePage (opts : CompilerOptions) (pageName pageText : String)
    (fs : List (String × String)) : Except String (List (String × String)) :=
  let finalPath := opts.dest ++ "/" ++ pageName ++ ".html"
  match writeFileFlagged opts.overwrite finalPath pageText fs with
  | Except.error code =>
    if code = "EEXIST" then
      Except.error ("Could not write " ++ pageName ++
        ".html: file exists. Try enabling the overwrite option.")
    else Except.error code
  | Except.ok fs1 => Except.ok fs1

/-- The `Promise.all` over all rendered pages: every write is issued whether
or not another one fails, and the first failure (in order) is reported. -/
def writeAllPages (opts : CompilerOptions) :
    List (String × String) → List (String × String) →
    Except String Unit × List (String × String)
  | [], fs => (Except.ok (), fs)
  | (pageName, pageText) :: rest, fs =>
    match writePage opts pageName pageText fs with
    | Except.error e =>
      let step := writeAllPages opts rest fs
      (Except.error e, step.2)
    | Except.ok fs1 => writeAllPages opts rest fs1

/-! ## The whole `compile` run -/

/-- Outcome of one `compile` call: the thrown-or-returned result, the
destination file map, and the process-global engine registries as the run
leaves them. -/
structure CompileOut (F : Type) where
  result : Except String Unit
  outFs : List (String × String)
  helperReg : List (String × F)
  helperImports : List String
  pstate : PState

/-- Lines 226-263 of `compile`: after every render (and post-processing)
succeeded, make the destination directory and write all output files. -/
def compileAfterPost {F : Type} (w : World F) (opts : CompilerOptions)
    (hreg1 : List (String × F)) (imports : List String) (pst1 : PState)
    (outFs renders1 : List (String × String)) : CompileOut F :=
  match w.mkdirErrCode with
  | some code =>
    ⟨Except.error ("Could not create destination directory: " ++ code),
      outFs, hreg1, imports, pst1⟩
  | none =>
    let written := writeAllPages opts renders1 outFs
    ⟨written.1, written.2, hreg1, imports, pst1⟩

/-- Lines 194-224 of `compile`: apply the optional post-build transform to the
completed renders, then hand over to the output writer. -/
def compileAfterRenders {F : Type} (w : World F) (opts : CompilerOptions)
    (hreg1 : List (String × F)) (imports : List String) (pst1 : PState)
    (outFs renders : List (String × String)) : CompileOut F :=
  match postPhase w renders with
  | Except.error e => ⟨Except.error e, outFs, hreg1, imports, pst1⟩
  | Except.ok renders1 => compileAfterPost w opts hreg1 imports pst1 outFs renders1

/-- Lines 160-192 of `compile`: fail when no page was discovered, otherwise
run the render loop and continue with the later phases. -/
def compileWithPages {F : Type} (fuel : Nat) (w : World F) (opts : CompilerOptions)
    (hreg1 : List (String × F)) (imports : List String) (pst : PState)
    (outFs : List (String × String)) (sharedData : Option Value)
    (pagePaths : List (String × String)) : Option (CompileOut F) :=
  if pagePaths.length < 1 then
    some ⟨Except.error "Found no pages to compile", outFs, hreg1, imports, pst⟩
  else
    match rendersPhase fuel w opts hreg1 sharedData pagePaths [] pst with
    | none => none
    | some (Except.error e, pst1) => some ⟨Except.error e, outFs, hreg1, imports, pst1⟩
    | some (Except.ok renders, pst1) =>
      some (compileAfterRenders w opts hreg1 imports pst1 outFs renders)

/-- `compile(srcPath, compilerOptions)` with the options already merged
(`\x7b ...defaultOptions, ...compilerOptions \x7d`): register helpers, read
the shared data record, render every non-excluded page, apply the optional
post-build transform, create the destination directory, and only then write
the output files.  `hreg` and `pst` are the process-global Handlebars
registries as the call finds them; `outFs` is the destination directory's
file map.  `none` propagates a non-terminating partial resolution. -/
def compileModel {F : Type} (fuel : Nat) (w : World F) (opts : CompilerOptions)
    (hreg : List (String × F)) (pst : PState) (outFs : List (String × String)) :
    Option (CompileOut F) :=
  match helpersPhase w opts hreg with
  | (Except.error e, hreg1, imports) => some ⟨Except.error e, outFs, hreg1, imports, pst⟩
  | (Except.ok _, hreg1, imports) =>
    match getData w.jsonParse w.yamlParse w.markedRender w.dataFs
        (w.srcPath ++ "/data") "_shared" with
    | Except.error e => some ⟨Except.error e, outFs, hreg1, imports, pst⟩
    | Except.ok sharedData =>
      compileWithPages fuel w opts hreg1 imports pst outFs sharedData (pagesGlob w)

/-! ## Trace bookkeeping for `registerPartials` -/

/-- The registered names of a trace segment, in registration order. -/
def regsOf : List Event → List String
  | [] => []
  | Event.load _ :: evs => regsOf evs
  | Event.register n _ :: evs => n :: regsOf evs

/-- How many times a trace segment registers the name `s`. -/
def countReg (s : String) : List Event → Nat
  | [] => 0
  | Event.register n _ :: evs => (if n = s then 1 else 0) + countReg s evs
  | Event.load _ :: evs => countReg s evs

/-- How many times a trace segment loads the file of the name `s`. -/
def countLoad (s : String) : List Event → Nat
  | [] => 0
  | Event.load n :: evs => (if n = s then 1 else 0) + countLoad s evs
  | Event.register _ _ :: evs => countLoad s evs

/-- Well-formed trace segments: processing events left to right with `ks` the
names registered before the segment, a partial file is only loaded for a name
not yet registered, and a partial is only registered after every name its own
text references is already registered. -/
inductive OkFrom : List String → List Event → Prop
  | nil {ks} : OkFrom ks []
  | load {ks n evs} : n ∉ ks → OkFrom ks evs → OkFrom ks (Event.load n :: evs)
  | register {ks n t evs} : (∀ m ∈ scanNames t, m ∈ ks) → OkFrom (n :: ks) evs →
      OkFrom ks (Event.register n t :: evs)

def RunStep (st st' : PState) : Prop :=
  ∃ evs, st'.trace = st.trace ++ evs ∧
    (∃ added, st'.reg = added ++ st.reg ∧ added.map Prod.fst = (regsOf evs).reverse) ∧
    OkFrom (keysOf st.reg) evs ∧
    (∀ s, countLoad s evs = countReg s evs)

def cycPageText : String := "\x7b\x7b> A\x7d\x7d"

def cycTextA : String := "\x7b\x7b> B\x7d\x7d"

def cycPartialsFs : List (String × String) :=
  [("partials/A.hbs", cycTextA), ("partials/B.hbs", cycPageText)]

/-- A diamond-shaped partials directory: the page references `A` twice and
`B` once, and both `A` and `B` reference `C`. -/
def diamondFs : List (String × String) :=
  [("partials/A.hbs", "\x7b\x7b> C\x7d\x7d"),
   ("partials/B.hbs", "\x7b\x7b> C\x7d\x7d"),
   ("partials/C.hbs", "hello")]

def diamondPage : String := "\x7b\x7b> A\x7d\x7d \x7b\x7b> B\x7d\x7d \x7b\x7b> A\x7d\x7d"

/-- The state `registerPartials` leaves behind on the diamond scenario. -/
def diamondResult : PState :=
  ⟨[("B", "\x7b\x7b> C\x7d\x7d"), ("A", "\x7b\x7b> C\x7d\x7d"), ("C", "hello")],
   [Event.load "A", Event.load "C", Event.register "C" "hello",
    Event.register "A" "\x7b\x7b> C\x7d\x7d", Event.load "B",
    Event.register "B" "\x7b\x7b> C\x7d\x7d"]⟩

/-- First run's world: one page referencing partial `p`, whose file holds
`T1`. -/
def w8Run1 : World String :=
  { srcPath := "src"
    pagesFs := [("src/pages/index.hbs", "\x7b\x7b> p\x7d\x7d")]
    partialsFs := [("src/partials/p.hbs", "T1")]
    dataFs := []
    helperFiles := []
    postBuildJs := []
    postBuildTs := []
    tsNodeOk := true
    loadHelper := fun _ => Except.error "unused"
    loadPostBuild := fun _ => Except.error "unused"
    render := fun _ _ _ _ => Except.ok "html"
    jsonParse := fun _ => Except.ok (Value.obj [])
    yamlParse := fun _ => Except.ok (Value.obj [])
    markedRender := fun s => s
    mkdirErrCode := none }

/-- Second run's world: the partial file now holds `T2`. -/
def w8Run2 : World String :=
  { w8Run1 with partialsFs := [("src/partials/p.hbs", "T2")] }

/-- Outcome of the first C8 run. -/
def out1C8 : CompileOut String :=
  ⟨Except.ok (), [("dist/index.html", "html")], [], [],
    ⟨[("p", "T1")], [Event.load "p", Event.register "p" "T1"]⟩⟩

/-- Outcome of the second C8 run: identical engine state — nothing was
re-loaded. -/
def out2C8 : CompileOut String :=
  ⟨Except.ok (), [("dist/index.html", "html")], [], [],
    ⟨[("p", "T1")], [Event.load "p", Event.register "p" "T1"]⟩⟩

/-- The helpers directory for the C10 scenario: both `name.js` and `name.ts`
exist for the same stem. -/
def w10 {F : Type} (load : String → Except String F) : World F :=
  { srcPath := "src"
    pagesFs := []
    partialsFs := []
    dataFs := []
    helperFiles := ["src/helpers/name.js", "src/helpers/name.ts"]
    postBuildJs := []
    postBuildTs := []
    tsNodeOk := true
    loadHelper := load
    loadPostBuild := fun _ => Except.error "unused"
    render := fun _ _ _ _ => Except.ok ""
    jsonParse := fun _ => Except.ok (Value.obj [])
    yamlParse := fun _ => Except.ok (Value.obj [])
    markedRender := fun s => s
    mkdirErrCode := none }

/-- Options enabling TypeScript support. -/
def opts10 : CompilerOptions := { defaultOptions with tsConfigPath := some "tsconfig.json" }

/-- The C7 witness world: the first run's world, but every render fails. -/
def w7 : World String :=
  { w8Run1 with render := fun _ _ _ _ => Except.error "boom" }

/-! ## Reference chains and closed name sets

Used to prove that a terminating `registerPartials` run never registers the
same name twice: a re-entry into a name being resolved would have to travel
along a chain of currently-unresolved references, and such a chain closes
into a cycle on which the recursion provably never terminates. -/

/-- `ChainNs fs ppath ns ys m`: starting from a name drawn from `ns`, the
names `ys` form a reference chain (each step goes through the unique partial
file of the previous name) whose last text references `m`; `ys = []` means
`m` itself is drawn from `ns`. -/
def ChainNs (fs : List (String × String)) (ppath : String) :
    List String → List String → String → Prop
  | ns, [], m => m ∈ ns
  | ns, y :: ys, m => y ∈ ns ∧ ∃ p t, findPartialFiles fs ppath y = [(p, t)] ∧
      ChainNs fs ppath (scanNames t) ys m

/-- A non-empty family of names each of which resolves to a unique partial
file whose text references some member of the family: the textual
representation of an inclusion cycle (or a union of cycles). -/
def ClosedSet (fs : List (String × String)) (ppath : String) (S : List String) : Prop :=
  ∀ m ∈ S, ∃ p t, findPartialFiles fs ppath m = [(p, t)] ∧ ∃ s ∈ S, s ∈ scanNames t

/-- A certified nested call: some `registerPartials` run at strictly smaller
fuel that returned successfully with the given trace extension. -/
def SubAt (fs : List (String × String)) (ppath : String) (f : Nat) (tm : String)
    (stin stout : PState) (evsin : List Event) : Prop :=
  ∃ g, g < f ∧ registerPartials g fs ppath tm stin = some (Except.ok stout) ∧
    stout.trace = stin.trace ++ evsin

/-- What every `register m tm` event of a run (processing the names `ns` from
a registry with keys `ks`, with `A` the events preceding the register) can be
traced back to: a certified nested call that resolved `m`'s unique file text
from a registry whose keys all predate the event, together with the reference
chain along which the run reached `m`, all of whose names were still
unregistered when the nested call started. -/
def SrcConcl (fs : List (String × String)) (ppath : String)
    (Sub : String → PState → PState → List Event → Prop)
    (ks ns : List String) (A : List Event) (m tm : String) : Prop :=
  ∃ stin stout evsin pm, Sub tm stin stout evsin ∧
    findPartialFiles fs ppath m = [(pm, tm)] ∧
    m ∉ keysOf stin.reg ∧
    (∀ x ∈ keysOf stin.reg, x ∈ ks ∨ x ∈ regsOf A) ∧
    ∃ ys, ChainNs fs ppath ns ys m ∧ ∀ y ∈ ys, y ∉ keysOf stin.reg

theorem regsOf_append (A B : List Event) : regsOf (A ++ B) = regsOf A ++ regsOf B := by
  induction A with
  | nil => rfl
  | cons e evs ih => cases e <;> simp [regsOf, ih]

theorem countReg_append (s : String) (A B : List Event) :
    countReg s (A ++ B) = countReg s A + countReg s B := by
  induction A with
  | nil => simp [countReg]
  | cons e evs ih => cases e <;> simp [countReg, ih, Nat.add_assoc]

theorem countLoad_append (s : String) (A B : List Event) :
    countLoad s (A ++ B) = countLoad s A + countLoad s B := by
  induction A with
  | nil => simp [countLoad]
  | cons e evs ih => cases e <;> simp [countLoad, ih, Nat.add_assoc]

theorem mem_regsOf_iff_countReg_pos (s : String) (evs : List Event) :
    s ∈ regsOf evs ↔ 0 < countReg s evs := by
  induction evs with
  | nil => simp [regsOf, countReg]
  | cons e evs ih =>
    cases e with
    | load n => simpa [regsOf, countReg] using ih
    | register n t =>
      by_cases h : n = s
      · subst h; simp [regsOf, countReg]
      · have h2 : ¬ (s = n) := fun hh => h hh.symm
        simp [regsOf, countReg, h, h2, ih]

theorem okFrom_append {ks : List String} {A B : List Event}
    (hA : OkFrom ks A) (hB : OkFrom ((regsOf A).reverse ++ ks) B) : OkFrom ks (A ++ B) := by
  induction hA with
  | nil => simpa [regsOf] using hB
  | load hn _ ih =>
    exact OkFrom.load hn (ih (by simpa [regsOf] using hB))
  | register hscan _ ih =>
    refine OkFrom.register hscan (ih ?_)
    simpa [regsOf, List.append_assoc] using hB

theorem okFrom_countLoad_zero {ks : List String} {evs : List Event}
    (h : OkFrom ks evs) {n : String} (hn : n ∈ ks) : countLoad n evs = 0 := by
  induction h with
  | nil => rfl
  | @load ks' m evs' hm _ ih =>
    have : ¬ (m = n) := fun he => hm (he ▸ hn)
    simp [countLoad, this, ih hn]
  | @register ks' m t evs' _ _ ih =>
    simp [countLoad, ih (List.mem_cons_of_mem m hn)]

theorem okFrom_postorder {ks : List String} {evs : List Event} (h : OkFrom ks evs) :
    ∀ pre n t post, evs = pre ++ Event.register n t :: post →
      ∀ m ∈ scanNames t, m ∈ ks ∨ m ∈ regsOf pre := by
  induction h with
  | nil =>
    intro pre n t post habs
    exact absurd habs (by simp)
  | @load ks' x evs' _ _ ih =>
    intro pre n t post heq m hm
    cases pre with
    | nil => simp at heq
    | cons p pre' =>
      simp only [List.cons_append, List.cons.injEq] at heq
      obtain ⟨hp, heq'⟩ := heq
      have := ih pre' n t post heq' m hm
      subst hp
      simpa [regsOf] using this
  | @register ks' x t' evs' hscan _ ih =>
    intro pre n t post heq m hm
    cases pre with
    | nil =>
      simp only [List.nil_append, List.cons.injEq] at heq
      obtain ⟨hp, _⟩ := heq
      obtain ⟨hn, ht⟩ := Event.register.inj hp
      subst ht
      exact Or.inl (hscan m hm)
    | cons p pre' =>
      simp only [List.cons_append, List.cons.injEq] at heq
      obtain ⟨hp, heq'⟩ := heq
      have := ih pre' n t post heq' m hm
      subst hp
      rcases this with hks | hpre
      · rcases List.mem_cons.mp hks with he | hks'
        · exact Or.inr (by simp [regsOf, he])
        · exact Or.inl hks'
      · exact Or.inr (by simp [regsOf, hpre])

/-! ## Key-lookup lemmas -/

theorem lookupKV_isSome_iff {α : Type} (k : String) (l : List (String × α)) :
    (lookupKV k l).isSome = true ↔ k ∈ keysOf l := by
  induction l with
  | nil => simp [lookupKV, keysOf]
  | cons p rest ih =>
    obtain ⟨k', v⟩ := p
    by_cases h : k' = k
    · subst h; simp [lookupKV, keysOf]
    · have h2 : ¬ (k = k') := fun hh => h hh.symm
      simp [lookupKV, keysOf, h, h2] at ih ⊢
      exact ih

theorem lookupKV_append_of_not_mem {α : Type} (k : String) (A B : List (String × α))
    (h : k ∉ keysOf A) : lookupKV k (A ++ B) = lookupKV k B := by
  induction A with
  | nil => rfl
  | cons p rest ih =>
    obtain ⟨k', v⟩ := p
    have hne : ¬ (k' = k) := by
      intro he; exact h (by simp [keysOf, he])
    have h' : k ∉ keysOf rest := fun hm => h (by simp [keysOf] at hm ⊢; exact Or.inr hm)
    simp [lookupKV, hne, ih h']

theorem keysOf_append {α : Type} (A B : List (String × α)) :
    keysOf (A ++ B) = keysOf A ++ keysOf B := by
  simp [keysOf]

/-! ## The master lemma: what a successful `registerPartials` run does

`RunStep st st'` packages what one successful call does to the global
registry: it appends a well-formed trace segment, prepends exactly the
registered pairs to the registry, and loads a file exactly as often as it
registers its name. -/

theorem runStep_refl (st : PState) : RunStep st st :=
  ⟨[], by simp, ⟨[], by simp, by simp [regsOf]⟩, OkFrom.nil, fun s => rfl⟩

theorem runStep_keys_subset {st st' : PState} (h : RunStep st st') :
    keysOf st.reg ⊆ keysOf st'.reg := by
  obtain ⟨evs, htr, ⟨added, hreg, hmap⟩, _, _⟩ := h
  rw [hreg, keysOf_append]
  exact List.subset_append_right _ _

theorem runStep_trans {st₁ st₂ st₃ : PState} (h1 : RunStep st₁ st₂) (h2 : RunStep st₂ st₃) :
    RunStep st₁ st₃ := by
  obtain ⟨evs1, htr1, ⟨add1, hreg1, hmap1⟩, hok1, hcnt1⟩ := h1
  obtain ⟨evs2, htr2, ⟨add2, hreg2, hmap2⟩, hok2, hcnt2⟩ := h2
  refine ⟨evs1 ++ evs2, ?_, ⟨add2 ++ add1, ?_, ?_⟩, ?_, ?_⟩
  · rw [htr2, htr1, List.append_assoc]
  · rw [hreg2, hreg1, List.append_assoc]
  · simp only [List.map_append, hmap1, hmap2, regsOf_append, List.reverse_append]
  · refine okFrom_append hok1 ?_
    have hkeys : keysOf st₂.reg = (regsOf evs1).reverse ++ keysOf st₁.reg := by
      rw [hreg1, keysOf_append]
      unfold keysOf
      rw [hmap1]
    rwa [hkeys] at hok2
  · intro s
    rw [countLoad_append, countReg_append, hcnt1 s, hcnt2 s]

theorem runStep_register_around {n ptext : String} (st st₂ : PState)
    (hguard : n ∉ keysOf st.reg)
    (hstep : RunStep { st with trace := st.trace ++ [Event.load n] } st₂)
    (hscan : ∀ m ∈ scanNames ptext, m ∈ keysOf st₂.reg) :
    RunStep st ⟨(n, ptext) :: st₂.reg, st₂.trace ++ [Event.register n ptext]⟩ := by
  obtain ⟨evs2, htr2, ⟨add2, hreg2, hmap2⟩, hok2, hcnt2⟩ := hstep
  have hkeys2 : keysOf st₂.reg = (regsOf evs2).reverse ++ keysOf st.reg := by
    rw [hreg2, keysOf_append]
    unfold keysOf
    rw [hmap2]
  refine ⟨Event.load n :: (evs2 ++ [Event.register n ptext]), ?_, ⟨(n, ptext) :: add2, ?_, ?_⟩,
    ?_, ?_⟩
  · show st₂.trace ++ [Event.register n ptext] = _
    rw [htr2]
    simp
  · show (n, ptext) :: st₂.reg = _
    rw [hreg2]
    rfl
  · simp [regsOf_append, regsOf, hmap2]
  · refine OkFrom.load hguard (okFrom_append hok2 ?_)
    refine OkFrom.register ?_ OkFrom.nil
    intro m hm
    have := hscan m hm
    rwa [hkeys2] at this
  · intro s
    have := hcnt2 s
    simp only [countLoad, countReg, countLoad_append, countReg_append]
    simp [countLoad, countReg]
    omega

theorem regLoop_ok {fs : List (String × String)} {ppath : String}
    {resolve : String → PState → Option (Except String PState)}
    (hres : ∀ text st st', resolve text st = some (Except.ok st') →
      RunStep st st' ∧ ∀ m ∈ scanNames text, m ∈ keysOf st'.reg) :
    ∀ (ns : List String) (st st' : PState),
      regLoop fs ppath resolve ns st = some (Except.ok st') →
      RunStep st st' ∧ ∀ n ∈ ns, n ∈ keysOf st'.reg := by
  intro ns
  induction ns with
  | nil =>
    intro st st' h
    simp only [regLoop, Option.some.injEq, Except.ok.injEq] at h
    subst h
    exact ⟨runStep_refl _, by simp⟩
  | cons n ns' ih =>
    intro st st' h
    simp only [regLoop] at h
    by_cases hg : (lookupKV n st.reg).isSome = true
    · rw [if_pos hg] at h
      obtain ⟨hstep, hmem⟩ := ih st st' h
      refine ⟨hstep, ?_⟩
      intro x hx
      rcases List.mem_cons.mp hx with rfl | hx'
      · exact runStep_keys_subset hstep ((lookupKV_isSome_iff x st.reg).mp hg)
      · exact hmem x hx'
    · rw [if_neg hg] at h
      split at h
      · simp at h
      · split at h
        · simp at h
        · simp at h
        · rename_i x1 fstv ptext hf x2 st₂ hr
          obtain ⟨hstep₂, hscan₂⟩ := hres ptext _ _ hr
          have hguard : n ∉ keysOf st.reg := fun hmem =>
            hg ((lookupKV_isSome_iff n st.reg).mpr hmem)
          have hstep₃ := runStep_register_around st st₂ hguard hstep₂ hscan₂
          obtain ⟨hstepTail, hmemTail⟩ := ih _ _ h
          refine ⟨runStep_trans hstep₃ hstepTail, ?_⟩
          intro x hx
          rcases List.mem_cons.mp hx with rfl | hx'
          · exact runStep_keys_subset hstepTail (by simp [keysOf])
          · exact hmemTail x hx'
      · simp at h

theorem registerPartials_ok (fs : List (String × String)) (ppath : String) :
    ∀ (fuel : Nat) (text : String) (st st' : PState),
      registerPartials fuel fs ppath text st = some (Except.ok st') →
      RunStep st st' ∧ ∀ m ∈ scanNames text, m ∈ keysOf st'.reg := by
  intro fuel
  induction fuel with
  | zero =>
    intro text st st' h
    simp [registerPartials] at h
  | succ f ih =>
    intro text st st' h
    simp only [registerPartials] at h
    exact regLoop_ok (fun t s s' hc => ih t s s' hc) (scanNames text) st st' h

/-! ## Unfolding helpers for concrete runs -/

theorem subAt_mono {fs : List (String × String)} {ppath : String} {f g : Nat}
    (h : f ≤ g) {tm : String} {stin stout : PState} {evsin : List Event}
    (hs : SubAt fs ppath f tm stin stout evsin) : SubAt fs ppath g tm stin stout evsin := by
  obtain ⟨k, hk, hrun, hext⟩ := hs
  exact ⟨k, Nat.lt_of_lt_of_le hk h, hrun, hext⟩

theorem exists_first_reg_of_set (S : List String) :
    ∀ evs : List Event, (∃ s ∈ S, s ∈ regsOf evs) →
    ∃ A m tm C, evs = A ++ Event.register m tm :: C ∧ m ∈ S ∧ ∀ y ∈ S, y ∉ regsOf A := by
  intro evs
  induction evs with
  | nil =>
    rintro ⟨s, hs, hmem⟩
    simp [regsOf] at hmem
  | cons e evs' ih =>
    rintro ⟨s, hs, hmem⟩
    cases e with
    | load x =>
      obtain ⟨A, m, tm, C, heq, hmS, hA⟩ := ih ⟨s, hs, by simpa [regsOf] using hmem⟩
      exact ⟨Event.load x :: A, m, tm, C, by simp [heq], hmS, fun y hy => by
        simpa [regsOf] using hA y hy⟩
    | register x tx =>
      by_cases hxS : x ∈ S
      · exact ⟨[], x, tx, evs', rfl, hxS, fun y hy => by simp [regsOf]⟩
      · have hmem' : s ∈ regsOf evs' := by
          have h2 : s ∈ x :: regsOf evs' := by simpa [regsOf] using hmem
          rcases List.mem_cons.mp h2 with rfl | h3
          · exact absurd hs hxS
          · exact h3
        obtain ⟨A, m, tm, C, heq, hmS, hA⟩ := ih ⟨s, hs, hmem'⟩
        refine ⟨Event.register x tx :: A, m, tm, C, by simp [heq], hmS, fun y hy hcon => ?_⟩
        have h4 : y ∈ x :: regsOf A := by simpa [regsOf] using hcon
        rcases List.mem_cons.mp h4 with rfl | h5
        · exact hxS hy
        · exact hA y hy h5

theorem chainNs_mono {fs : List (String × String)} {ppath : String}
    {ns ns' : List String} (hsub : ∀ x ∈ ns, x ∈ ns')
    {ys : List String} {m : String} (h : ChainNs fs ppath ns ys m) :
    ChainNs fs ppath ns' ys m := by
  cases ys with
  | nil => exact hsub m h
  | cons y ys2 =>
    obtain ⟨hy, p, t, hf, hc⟩ := h
    exact ⟨hsub y hy, p, t, hf, hc⟩

theorem chainNs_members {fs : List (String × String)} {ppath : String} :
    ∀ (ys ns : List String) (m : String), ChainNs fs ppath ns ys m →
    ∀ y ∈ ys, ∃ p t, findPartialFiles fs ppath y = [(p, t)] ∧
      ∃ s ∈ m :: ys, s ∈ scanNames t := by
  intro ys
  induction ys with
  | nil =>
    intro ns m h y hy
    exact absurd hy (List.not_mem_nil y)
  | cons y0 ys2 ih =>
    intro ns m h y hy
    obtain ⟨hy0, p, t, hf, hc⟩ := h
    rcases List.mem_cons.mp hy with rfl | hy2
    · refine ⟨p, t, hf, ?_⟩
      cases ys2 with
      | nil => exact ⟨m, List.mem_cons_self _ _, hc⟩
      | cons y1 ys3 =>
        obtain ⟨hy1, _⟩ := hc
        exact ⟨y1, by simp, hy1⟩
    · obtain ⟨p2, t2, hf2, s, hsmem, hst⟩ := ih (scanNames t) m hc y hy2
      refine ⟨p2, t2, hf2, s, ?_, hst⟩
      rcases List.mem_cons.mp hsmem with rfl | h3
      · exact List.mem_cons_self _ _
      · exact List.mem_cons_of_mem _ (List.mem_cons_of_mem _ h3)

theorem regLoop_src {fs : List (String × String)} {ppath : String}
    {resolve : String → PState → Option (Except String PState)}
    {Sub : String → PState → PState → List Event → Prop}
    (hres_run : ∀ tm stin stout evsin, resolve tm stin = some (Except.ok stout) →
      stout.trace = stin.trace ++ evsin → Sub tm stin stout evsin)
    (hres_ok : ∀ text st st', resolve text st = some (Except.ok st') →
      RunStep st st' ∧ ∀ m ∈ scanNames text, m ∈ keysOf st'.reg)
    (hres_hf : ∀ n p tn st st' evs, findPartialFiles fs ppath n = [(p, tn)] →
      n ∉ keysOf st.reg → resolve tn st = some (Except.ok st') →
      st'.trace = st.trace ++ evs → n ∉ regsOf evs)
    (hres_src : ∀ t st st' evs, resolve t st = some (Except.ok st') →
      st'.trace = st.trace ++ evs → ∀ A m tm C, evs = A ++ Event.register m tm :: C →
      SrcConcl fs ppath Sub (keysOf st.reg) (scanNames t) A m tm) :
    ∀ (ns : List String) (st st' : PState) (evs : List Event),
      regLoop fs ppath resolve ns st = some (Except.ok st') →
      st'.trace = st.trace ++ evs →
      ∀ A m tm C, evs = A ++ Event.register m tm :: C →
      SrcConcl fs ppath Sub (keysOf st.reg) ns A m tm := by
  intro ns
  induction ns with
  | nil =>
    intro st st' evs h htr A m tm C heq
    simp only [regLoop, Option.some.injEq, Except.ok.injEq] at h
    subst h
    have hevs : evs = [] := by
      have hlen := congrArg List.length htr
      simp at hlen
      exact hlen
    rw [hevs] at heq
    exact absurd heq.symm (by simp)
  | cons n ns' ih =>
    intro st st' evs h htr A m tm C heq
    simp only [regLoop] at h
    by_cases hg : (lookupKV n st.reg).isSome = true
    · rw [if_pos hg] at h
      have hconcl := ih st st' evs h htr A m tm C heq
      obtain ⟨stin, stout, evsin, pm, hsub, hfm, hmnot, hkeys, ys, hchain, hpend⟩ := hconcl
      exact ⟨stin, stout, evsin, pm, hsub, hfm, hmnot, hkeys, ys,
        chainNs_mono (fun x hx => List.mem_cons_of_mem n hx) hchain, hpend⟩
    · rw [if_neg hg] at h
      split at h
      · simp at h
      · split at h
        · simp at h
        · simp at h
        · rename_i x1 fstv ptext hf x2 st₂ hr
          have hguard : n ∉ keysOf st.reg := fun hmem =>
            hg ((lookupKV_isSome_iff n st.reg).mpr hmem)
          obtain ⟨hstep₂, hscan₂⟩ := hres_ok ptext _ _ hr
          obtain ⟨evs₂, htr₂, ⟨add₂, hreg₂, hmap₂⟩, hok₂, hcntld₂⟩ := hstep₂
          obtain ⟨hstepT, _⟩ := regLoop_ok hres_ok ns' _ _ h
          obtain ⟨evs₃, htr₃, ⟨add₃, hreg₃, hmap₃⟩, hok₃, hcntld₃⟩ := hstepT
          have hkeys₂ : keysOf st₂.reg = (regsOf evs₂).reverse ++ keysOf st.reg := by
            rw [hreg₂, keysOf_append]
            unfold keysOf
            rw [hmap₂]
          have hevs : evs = Event.load n :: (evs₂ ++ (Event.register n ptext :: evs₃)) := by
            have hcat : st.trace ++ evs =
                st.trace ++ (Event.load n :: (evs₂ ++ (Event.register n ptext :: evs₃))) := by
              rw [← htr, htr₃]
              show (st₂.trace ++ [Event.register n ptext]) ++ evs₃ = _
              rw [htr₂]
              show ((st.trace ++ [Event.load n]) ++ evs₂ ++ [Event.register n ptext]) ++ evs₃ = _
              simp
            exact List.append_cancel_left hcat
          have hnin₂ : n ∉ regsOf evs₂ :=
            hres_hf n fstv ptext { st with trace := st.trace ++ [Event.load n] } st₂ evs₂
              hf hguard hr htr₂
          rw [hevs] at heq
          cases A with
          | nil =>
            simp only [List.nil_append, List.cons.injEq] at heq
            exact absurd heq.1 (by simp)
          | cons e A' =>
            simp only [List.cons_append, List.cons.injEq] at heq
            obtain ⟨he, heq'⟩ := heq
            subst he
            -- heq' : evs₂ ++ (reg n ptext :: evs₃) = A' ++ (reg m tm :: C)
            rcases List.append_eq_append_iff.mp heq'.symm with ⟨a2, ha1, ha2⟩ | ⟨c2, hc1, hc2⟩
            · -- ha1 : evs₂ = A' ++ a2, ha2 : reg m tm :: C = a2 ++ (reg n ptext :: evs₃)
              cases a2 with
              | nil =>
                -- the event is the register of n itself
                simp only [List.nil_append, List.cons.injEq] at ha2
                obtain ⟨hregeq, hC⟩ := ha2
                obtain ⟨hm, htm⟩ := Event.register.inj hregeq
                subst hm
                subst htm
                simp only [List.append_nil] at ha1
                refine ⟨{ st with trace := st.trace ++ [Event.load m] }, st₂, evs₂, fstv,
                  hres_run tm _ _ _ hr htr₂, hf, hguard, ?_, [], List.mem_cons_self _ _,
                  fun y hy => absurd hy (List.not_mem_nil y)⟩
                intro x hx
                exact Or.inl hx
              | cons e2 a3 =>
                -- the event lies inside the inner run evs₂
                simp only [List.cons_append, List.cons.injEq] at ha2
                obtain ⟨he2, hC⟩ := ha2
                rw [← he2] at ha1
                have hconcl := hres_src ptext _ _ evs₂ hr htr₂ A' m tm a3 ha1
                obtain ⟨stin, stout, evsin, pm, hsub, hfm, hmnot, hkeysin, ys2, hchain,
                  hpend⟩ := hconcl
                refine ⟨stin, stout, evsin, pm, hsub, hfm, hmnot, ?_,
                  n :: ys2, ⟨List.mem_cons_self _ _, fstv, ptext, hf, hchain⟩, ?_⟩
                · intro x hx
                  rcases hkeysin x hx with hx3 | hx3
                  · exact Or.inl hx3
                  · right
                    simp only [regsOf]
                    exact hx3
                · intro y hy
                  rcases List.mem_cons.mp hy with rfl | hy2
                  · intro hcon
                    rcases hkeysin y hcon with hx3 | hx3
                    · exact hguard hx3
                    · have hmem2 : y ∈ regsOf evs₂ := by
                        rw [ha1]
                        simp only [regsOf_append, regsOf, List.mem_append]
                        exact Or.inl hx3
                      exact hnin₂ hmem2
                  · exact hpend y hy2
            · -- hc1 : A' = evs₂ ++ c2, hc2 : reg n ptext :: evs₃ = c2 ++ (reg m tm :: C)
              cases c2 with
              | nil =>
                -- the event is again the register of n itself
                simp only [List.nil_append, List.cons.injEq] at hc2
                obtain ⟨hregeq, hC⟩ := hc2
                obtain ⟨hm, htm⟩ := Event.register.inj hregeq
                subst hm
                subst htm
                simp only [List.append_nil] at hc1
                refine ⟨{ st with trace := st.trace ++ [Event.load n] }, st₂, evs₂, fstv,
                  hres_run ptext _ _ _ hr htr₂, hf, hguard, ?_, [], List.mem_cons_self _ _,
                  fun y hy => absurd hy (List.not_mem_nil y)⟩
                intro x hx
                exact Or.inl hx
              | cons e3 c3 =>
                -- the event lies in the tail run evs₃
                simp only [List.cons_append, List.cons.injEq] at hc2
                obtain ⟨he3, hevs₃⟩ := hc2
                rw [← he3] at hc1
                have hconcl := ih _ _ evs₃ h htr₃ c3 m tm C hevs₃
                obtain ⟨stin, stout, evsin, pm, hsub, hfm, hmnot, hkeysin, ys, hchain,
                  hpend⟩ := hconcl
                refine ⟨stin, stout, evsin, pm, hsub, hfm, hmnot, ?_, ys,
                  chainNs_mono (fun x hx => List.mem_cons_of_mem n hx) hchain, hpend⟩
                intro x hx
                rcases hkeysin x hx with hx3 | hx3
                · have hx4 : x ∈ n :: keysOf st₂.reg := by
                    simpa [keysOf] using hx3
                  rcases List.mem_cons.mp hx4 with rfl | hx5
                  · right
                    rw [hc1]
                    simp [regsOf_append, regsOf]
                  · rw [hkeys₂] at hx5
                    rcases List.mem_append.mp hx5 with hx6 | hx6
                    · right
                      rw [hc1]
                      simp only [regsOf_append, regsOf, List.mem_append, List.mem_cons]
                      exact Or.inl (List.mem_reverse.mp hx6)
                    · exact Or.inl hx6
                · right
                  rw [hc1]
                  simp only [regsOf_append, regsOf, List.mem_append, List.mem_cons]
                  exact Or.inr (Or.inr hx3)
      · simp at h

theorem partials_triple (fs : List (String × String)) (ppath : String) :
    ∀ f : Nat,
      (∀ (t : String) (st st' : PState) (evs : List Event),
        registerPartials f fs ppath t st = some (Except.ok st') →
        st'.trace = st.trace ++ evs →
        ∀ A m tm C, evs = A ++ Event.register m tm :: C →
        SrcConcl fs ppath (SubAt fs ppath f) (keysOf st.reg) (scanNames t) A m tm) ∧
      (∀ (S : List String) (c p tc : String) (st st' : PState),
        ClosedSet fs ppath S → c ∈ S → findPartialFiles fs ppath c = [(p, tc)] →
        (∀ s ∈ S, s ∉ keysOf st.reg) →
        registerPartials f fs ppath tc st ≠ some (Except.ok st')) ∧
      (∀ (n p tn : String) (st st' : PState) (evs : List Event),
        findPartialFiles fs ppath n = [(p, tn)] → n ∉ keysOf st.reg →
        registerPartials f fs ppath tn st = some (Except.ok st') →
        st'.trace = st.trace ++ evs → n ∉ regsOf evs) := by
  intro f
  induction f using Nat.strong_induction_on with
  | _ f IH =>
    have hsrc : ∀ (t : String) (st st' : PState) (evs : List Event),
        registerPartials f fs ppath t st = some (Except.ok st') →
        st'.trace = st.trace ++ evs →
        ∀ A m tm C, evs = A ++ Event.register m tm :: C →
        SrcConcl fs ppath (SubAt fs ppath f) (keysOf st.reg) (scanNames t) A m tm := by
      cases f with
      | zero =>
        intro t st st' evs h
        simp [registerPartials] at h
      | succ g =>
        intro t st st' evs h htr A m tm C heq
        simp only [registerPartials] at h
        refine @regLoop_src fs ppath (registerPartials g fs ppath) (SubAt fs ppath (g + 1))
          ?_ ?_ ?_ ?_ (scanNames t) st st' evs h htr A m tm C heq
        · intro tm2 stin stout evsin hcall hext
          exact ⟨g, Nat.lt_succ_self g, hcall, hext⟩
        · intro text st2 st3 hcall
          exact registerPartials_ok fs ppath g text st2 st3 hcall
        · exact (IH g (Nat.lt_succ_self g)).2.2
        · intro t2 st2 st3 evs2 hcall hext A2 m2 tm2 C2 heq2
          obtain ⟨stin, stout, evsin, pm, hsub, hfm, hmnot, hkeysin, ys, hchain, hpend⟩ :=
            (IH g (Nat.lt_succ_self g)).1 t2 st2 st3 evs2 hcall hext A2 m2 tm2 C2 heq2
          exact ⟨stin, stout, evsin, pm, subAt_mono (Nat.le_succ g) hsub, hfm, hmnot,
            hkeysin, ys, hchain, hpend⟩
    have hcyc : ∀ (S : List String) (c p tc : String) (st st' : PState),
        ClosedSet fs ppath S → c ∈ S → findPartialFiles fs ppath c = [(p, tc)] →
        (∀ s ∈ S, s ∉ keysOf st.reg) →
        registerPartials f fs ppath tc st ≠ some (Except.ok st') := by
      intro S c p tc st st' hclosed hc hfind hdisj hrun
      obtain ⟨hstep, hmem⟩ := registerPartials_ok fs ppath f tc st st' hrun
      obtain ⟨evs, htr, ⟨add, hreg, hmap⟩, hok, hcnt⟩ := hstep
      obtain ⟨p2, t2, hfind2, s₁, hs₁S, hs₁scan⟩ := hclosed c hc
      have hpair : p2 = p ∧ t2 = tc := by
        have h2 := hfind.symm.trans hfind2
        simp only [List.cons.injEq, Prod.mk.injEq] at h2
        exact ⟨h2.1.1.symm, h2.1.2.symm⟩
      have hs₁scan' : s₁ ∈ scanNames tc := hpair.2 ▸ hs₁scan
      have hkeys' : keysOf st'.reg = (regsOf evs).reverse ++ keysOf st.reg := by
        rw [hreg, keysOf_append]
        unfold keysOf
        rw [hmap]
      have hs₁mem := hmem s₁ hs₁scan'
      rw [hkeys'] at hs₁mem
      rcases List.mem_append.mp hs₁mem with hs₁r | hs₁k
      · obtain ⟨A, m, tm, C, heq, hmS, hA⟩ :=
          exists_first_reg_of_set S evs ⟨s₁, hs₁S, List.mem_reverse.mp hs₁r⟩
        obtain ⟨stin, stout, evsin, pm, ⟨g, hg, hrun₂, hext₂⟩, hfm, hmnot, hkeysin, _⟩ :=
          hsrc tc st st' evs hrun htr A m tm C heq
        have hdisj2 : ∀ s ∈ S, s ∉ keysOf stin.reg := by
          intro s hsS hmem2
          rcases hkeysin s hmem2 with h1 | h1
          · exact hdisj s hsS h1
          · exact hA s hsS h1
        exact (IH g hg).2.1 S m pm tm stin stout hclosed hmS hfm hdisj2 hrun₂
      · exact hdisj s₁ hs₁S hs₁k
    have hhf : ∀ (n p tn : String) (st st' : PState) (evs : List Event),
        findPartialFiles fs ppath n = [(p, tn)] → n ∉ keysOf st.reg →
        registerPartials f fs ppath tn st = some (Except.ok st') →
        st'.trace = st.trace ++ evs → n ∉ regsOf evs := by
      intro n p tn st st' evs hfind hnot hrun htr hin
      obtain ⟨A, m, tm, C, heq, hmS, hA⟩ :=
        exists_first_reg_of_set [n] evs ⟨n, by simp, hin⟩
      have hmn : m = n := by simpa using hmS
      subst hmn
      obtain ⟨stin, stout, evsin, pm, ⟨g, hg, hrun₂, hext₂⟩, hfm, hmnot, hkeysin, ys,
        hchain, hpend⟩ := hsrc tn st st' evs hrun htr A m tm C heq
      have hpair : pm = p ∧ tm = tn := by
        have h2 := hfm.symm.trans hfind
        simp only [List.cons.injEq, Prod.mk.injEq] at h2
        exact ⟨h2.1.1, h2.1.2⟩
      rw [hpair.2] at hrun₂
      have hclosed : ClosedSet fs ppath (m :: ys) := by
        intro mN hmN
        rcases List.mem_cons.mp hmN with rfl | hyN
        · refine ⟨p, tn, hfind, ?_⟩
          cases ys with
          | nil => exact ⟨mN, List.mem_cons_self _ _, hchain⟩
          | cons y0 ys2 =>
            obtain ⟨hy0, _⟩ := hchain
            exact ⟨y0, by simp, hy0⟩
        · obtain ⟨py, ty, hfy, s, hsmem, hst⟩ :=
            chainNs_members ys (scanNames tn) m hchain mN hyN
          exact ⟨py, ty, hfy, s, hsmem, hst⟩
      have hdisj : ∀ s ∈ m :: ys, s ∉ keysOf stin.reg := by
        intro s hsmem
        rcases List.mem_cons.mp hsmem with rfl | h2
        · exact hmnot
        · exact hpend s h2
      exact (IH g hg).2.1 (m :: ys) m p tn stin stout hclosed
        (List.mem_cons_self _ _) hfind hdisj hrun₂
    exact ⟨hsrc, hcyc, hhf⟩

theorem regLoop_cnt {fs : List (String × String)} {ppath : String}
    {resolve : String → PState → Option (Except String PState)}
    (hres_ok : ∀ text st st', resolve text st = some (Except.ok st') →
      RunStep st st' ∧ ∀ m ∈ scanNames text, m ∈ keysOf st'.reg)
    (hres_hf : ∀ (n p tn : String) (st st' : PState) (evs : List Event),
      findPartialFiles fs ppath n = [(p, tn)] → n ∉ keysOf st.reg →
      resolve tn st = some (Except.ok st') →
      st'.trace = st.trace ++ evs → n ∉ regsOf evs)
    (hres_cnt : ∀ text st st' evs, resolve text st = some (Except.ok st') →
      st'.trace = st.trace ++ evs → ∀ s, countReg s evs ≤ 1) :
    ∀ (ns : List String) (st st' : PState) (evs : List Event),
      regLoop fs ppath resolve ns st = some (Except.ok st') →
      st'.trace = st.trace ++ evs →
      ∀ s, countReg s evs ≤ 1 := by
  intro ns
  induction ns with
  | nil =>
    intro st st' evs h htr
    simp only [regLoop, Option.some.injEq, Except.ok.injEq] at h
    subst h
    have hevs : evs = [] := by
      have hlen := congrArg List.length htr
      simp at hlen
      exact hlen
    subst hevs
    intro s
    simp [countReg]
  | cons n ns' ih =>
    intro st st' evs h htr
    simp only [regLoop] at h
    by_cases hg : (lookupKV n st.reg).isSome = true
    · rw [if_pos hg] at h
      exact ih st st' evs h htr
    · rw [if_neg hg] at h
      split at h
      · simp at h
      · split at h
        · simp at h
        · simp at h
        · rename_i x1 fstv ptext hf x2 st₂ hr
          have hguard : n ∉ keysOf st.reg := fun hmem =>
            hg ((lookupKV_isSome_iff n st.reg).mpr hmem)
          obtain ⟨hstep₂, hscan₂⟩ := hres_ok ptext _ _ hr
          obtain ⟨evs₂, htr₂, ⟨add₂, hreg₂, hmap₂⟩, hok₂, hcntld₂⟩ := hstep₂
          obtain ⟨hstepT, _⟩ := regLoop_ok hres_ok ns' _ _ h
          obtain ⟨evs₃, htr₃, ⟨add₃, hreg₃, hmap₃⟩, hok₃, hcntld₃⟩ := hstepT
          have hkeys₂ : keysOf st₂.reg = (regsOf evs₂).reverse ++ keysOf st.reg := by
            rw [hreg₂, keysOf_append]
            unfold keysOf
            rw [hmap₂]
          have hevs : evs = Event.load n :: (evs₂ ++ (Event.register n ptext :: evs₃)) := by
            have : st.trace ++ evs =
                st.trace ++ (Event.load n :: (evs₂ ++ (Event.register n ptext :: evs₃))) := by
              rw [← htr, htr₃]
              show (st₂.trace ++ [Event.register n ptext]) ++ evs₃ = _
              rw [htr₂]
              show ((st.trace ++ [Event.load n]) ++ evs₂ ++ [Event.register n ptext]) ++ evs₃ = _
              simp
            exact List.append_cancel_left this
          have hcnt₂ := hres_cnt ptext _ _ evs₂ hr htr₂
          have hcnt₃ := ih _ _ evs₃ h htr₃
          have hregn₂ : countReg n evs₂ = 0 := by
            by_contra hne
            have hpos : 0 < countReg n evs₂ := Nat.pos_of_ne_zero hne
            have hmem := (mem_regsOf_iff_countReg_pos n evs₂).mpr hpos
            exact hres_hf n fstv ptext { st with trace := st.trace ++ [Event.load n] }
              st₂ evs₂ hf hguard hr htr₂ hmem
          have hzero₃ : ∀ s, s ∈ keysOf st₂.reg ∨ s = n → countReg s evs₃ = 0 := by
            intro s hs
            have hmem2 : s ∈ keysOf ((n, ptext) :: st₂.reg) := by
              simp only [keysOf, List.map_cons, List.mem_cons]
              rcases hs with hs | rfl
              · exact Or.inr hs
              · exact Or.inl rfl
            rw [← hcntld₃ s]
            exact okFrom_countLoad_zero hok₃ hmem2
          intro s
          rw [hevs]
          simp only [countReg, countReg_append]
          by_cases hsn : n = s
          · subst hsn
            rw [hregn₂, hzero₃ n (Or.inr rfl)]
            simp
          · have h0 : (if n = s then 1 else 0) = 0 := by simp [hsn]
            rw [h0]
            by_cases ha : 0 < countReg s evs₂
            · have hmem := (mem_regsOf_iff_countReg_pos s evs₂).mpr ha
              have hs₂ : s ∈ keysOf st₂.reg := by
                rw [hkeys₂]
                exact List.mem_append_left _ (List.mem_reverse.mpr hmem)
              rw [hzero₃ s (Or.inl hs₂)]
              have := hcnt₂ s
              omega
            · have ha0 : countReg s evs₂ = 0 := Nat.eq_zero_of_not_pos ha
              rw [ha0]
              have := hcnt₃ s
              omega
      · simp at h

theorem registerPartials_cnt (fs : List (String × String)) (ppath : String) :
    ∀ (fuel : Nat) (text : String) (st st' : PState) (evs : List Event),
      registerPartials fuel fs ppath text st = some (Except.ok st') →
      st'.trace = st.trace ++ evs →
      ∀ s, countReg s evs ≤ 1 := by
  intro fuel
  induction fuel with
  | zero =>
    intro text st st' evs h htr
    simp [registerPartials] at h
  | succ f ih =>
    intro text st st' evs h htr
    simp only [registerPartials] at h
    exact regLoop_cnt (registerPartials_ok fs ppath f)
      (partials_triple fs ppath f).2.2
      (fun t s s' e hc => ih t s s' e hc) (scanNames text) st st' evs h htr

theorem registerPartials_succ (fuel : Nat) (fs : List (String × String))
    (ppath text : String) (st : PState) :
    registerPartials (fuel + 1) fs ppath text st =
      regLoop fs ppath (registerPartials fuel fs ppath) (scanNames text) st := rfl

theorem regLoop_cons_fresh {fs : List (String × String)} {ppath : String}
    {resolve : String → PState → Option (Except String PState)}
    {n : String} {ns : List String} {st : PState}
    (hg : lookupKV n st.reg = none) {p ptext : String}
    (hf : findPartialFiles fs ppath n = [(p, ptext)]) :
    regLoop fs ppath resolve (n :: ns) st =
      match resolve ptext { st with trace := st.trace ++ [Event.load n] } with
      | none => none
      | some (Except.error e) => some (Except.error e)
      | some (Except.ok st1) =>
        regLoop fs ppath resolve ns
          { reg := (n, ptext) :: st1.reg, trace := st1.trace ++ [Event.register n ptext] } := by
  simp only [regLoop, hg, hf, Option.isSome_none, Bool.false_eq_true, if_false]

/-! ## A genuine inclusion cycle

`cycPageText` is both the page text and the text of `B.hbs`; `A.hbs`
references `B` and `B.hbs` references `A`, so the partials directory holds a
two-element inclusion cycle reachable from the page. -/

theorem cyc_run_diverges : ∀ (fuel : Nat) (tr : List Event),
    registerPartials fuel cycPartialsFs "partials" cycPageText ⟨[], tr⟩ = none ∧
    registerPartials fuel cycPartialsFs "partials" cycTextA ⟨[], tr⟩ = none := by
  intro fuel
  induction fuel with
  | zero => intro tr; exact ⟨rfl, rfl⟩
  | succ f ih =>
    intro tr
    have hsPage : scanNames cycPageText = ["A"] := by decide
    have hsA : scanNames cycTextA = ["B"] := by decide
    have hfA : findPartialFiles cycPartialsFs "partials" "A" =
        [("partials/A.hbs", cycTextA)] := by decide
    have hfB : findPartialFiles cycPartialsFs "partials" "B" =
        [("partials/B.hbs", cycPageText)] := by decide
    have hgA : lookupKV "A" (PState.mk [] tr).reg = none := rfl
    have hgB : lookupKV "B" (PState.mk [] tr).reg = none := rfl
    constructor
    · rw [registerPartials_succ, hsPage, regLoop_cons_fresh hgA hfA]
      rw [(ih (tr ++ [Event.load "A"])).2]
    · rw [registerPartials_succ, hsA, regLoop_cons_fresh hgB hfB]
      rw [(ih (tr ++ [Event.load "B"])).1]

/-! ## State threading through the render loop -/

theorem rendersPhase_pstep {F : Type} (fuel : Nat) (w : World F) (opts : CompilerOptions)
    (hreg : List (String × F)) (shared : Option Value) :
    ∀ (pages renders : List (String × String)) (pst : PState)
      (res : Except String (List (String × String))) (pst' : PState),
      rendersPhase fuel w opts hreg shared pages renders pst = some (res, pst') →
      RunStep pst pst' := by
  intro pages
  induction pages with
  | nil =>
    intro renders pst res pst' h
    simp only [rendersPhase, Option.some.injEq, Prod.mk.injEq] at h
    exact h.2 ▸ runStep_refl pst
  | cons pg rest ih =>
    intro renders pst res pst' h
    obtain ⟨pagePath, pageText⟩ := pg
    simp only [rendersPhase] at h
    by_cases hex :
        (opts.exclude.any fun ex => ex = stemOf pagePath || ex = basenameOf pagePath) = true
    · rw [if_pos hex] at h
      exact ih _ _ _ _ h
    · rw [if_neg hex] at h
      split at h
      · simp at h
      · simp only [Option.some.injEq, Prod.mk.injEq] at h
        exact h.2 ▸ runStep_refl pst
      · rename_i x1 pst1 hreg1
        have hstep1 : RunStep pst pst1 :=
          (registerPartials_ok w.partialsFs (w.srcPath ++ "/partials") fuel pageText
            pst pst1 hreg1).1
        split at h
        · simp only [Option.some.injEq, Prod.mk.injEq] at h
          exact h.2 ▸ hstep1
        · split at h
          · simp only [Option.some.injEq, Prod.mk.injEq] at h
            exact h.2 ▸ hstep1
          · exact runStep_trans hstep1 (ih _ _ _ _ h)

theorem compileAfterPost_pstate {F : Type} (w : World F) (opts : CompilerOptions)
    (hreg1 : List (String × F)) (imports : List String) (pst1 : PState)
    (outFs renders1 : List (String × String)) :
    (compileAfterPost w opts hreg1 imports pst1 outFs renders1).pstate = pst1 := by
  unfold compileAfterPost
  split
  · rfl
  · rfl

theorem compileAfterRenders_pstate {F : Type} (w : World F) (opts : CompilerOptions)
    (hreg1 : List (String × F)) (imports : List String) (pst1 : PState)
    (outFs renders : List (String × String)) :
    (compileAfterRenders w opts hreg1 imports pst1 outFs renders).pstate = pst1 := by
  unfold compileAfterRenders
  split
  · rfl
  · exact compileAfterPost_pstate w opts hreg1 imports pst1 outFs _

theorem compileWithPages_pstep {F : Type} (fuel : Nat) (w : World F) (opts : CompilerOptions)
    (hreg1 : List (String × F)) (imports : List String) (pst : PState)
    (outFs : List (String × String)) (sharedData : Option Value)
    (pagePaths : List (String × String)) (out : CompileOut F)
    (h : compileWithPages fuel w opts hreg1 imports pst outFs sharedData pagePaths =
      some out) : RunStep pst out.pstate := by
  unfold compileWithPages at h
  split at h
  · simp only [Option.some.injEq] at h
    rw [← h]
    exact runStep_refl pst
  · split at h
    · simp at h
    · rename_i e pst1 hrp
      simp only [Option.some.injEq] at h
      rw [← h]
      exact rendersPhase_pstep fuel w opts hreg1 sharedData pagePaths [] pst _ _ hrp
    · rename_i renders pst1 hrp
      simp only [Option.some.injEq] at h
      rw [← h]
      rw [compileAfterRenders_pstate]
      exact rendersPhase_pstep fuel w opts hreg1 sharedData pagePaths [] pst _ _ hrp

theorem compileModel_pstep {F : Type} (fuel : Nat) (w : World F) (opts : CompilerOptions)
    (hreg : List (String × F)) (pst : PState) (outFs : List (String × String))
    (out : CompileOut F) (h : compileModel fuel w opts hreg pst outFs = some out) :
    RunStep pst out.pstate := by
  unfold compileModel at h
  split at h
  · simp only [Option.some.injEq] at h
    rw [← h]
    exact runStep_refl pst
  · split at h
    · simp only [Option.some.injEq] at h
      rw [← h]
      exact runStep_refl pst
    · exact compileWithPages_pstep fuel w opts _ _ pst outFs _ _ out h

/-! ## Concrete scenarios used by witnesses and counterexamples -/

/-! ## C1: idempotent, exactly-once partial registration -/

/-- C1: in every terminating run of `registerPartials`, every name is loaded
and registered at most once, names already present in the registry are never
loaded or registered again (re-encountering them is a no-op), and every name
the template references (N ≥ 1 occurrences, any nesting including diamonds)
that was not already registered is loaded and registered exactly once. -/
theorem registerPartials_registers_once
    (fuel : Nat) (fs : List (String × String)) (ppath text : String) (st st' : PState)
    (h : registerPartials fuel fs ppath text st = some (Except.ok st')) :
    ∃ evs, st'.trace = st.trace ++ evs ∧
      (∀ n, countReg n evs ≤ 1 ∧ countLoad n evs = countReg n evs) ∧
      (∀ n, n ∈ keysOf st.reg → countLoad n evs = 0 ∧ countReg n evs = 0) ∧
      (∀ n, n ∈ scanNames text → n ∉ keysOf st.reg →
        countLoad n evs = 1 ∧ countReg n evs = 1) := by
  obtain ⟨hstep, hmem⟩ := registerPartials_ok fs ppath fuel text st st' h
  obtain ⟨evs, htr, ⟨added, hreg, hmap⟩, hok, hcnt⟩ := hstep
  have hcnt1 := registerPartials_cnt fs ppath fuel text st st' evs h htr
  have hkeys : keysOf st'.reg = (regsOf evs).reverse ++ keysOf st.reg := by
    rw [hreg, keysOf_append]
    unfold keysOf
    rw [hmap]
  refine ⟨evs, htr, fun n => ⟨hcnt1 n, hcnt n⟩, ?_, ?_⟩
  · intro n hn
    have hl : countLoad n evs = 0 := okFrom_countLoad_zero hok hn
    refine ⟨hl, ?_⟩
    rw [← hcnt n]
    exact hl
  · intro n hscan hnot
    have hm := hmem n hscan
    rw [hkeys] at hm
    rcases List.mem_append.mp hm with hmm | hmm
    · have hmr : n ∈ regsOf evs := List.mem_reverse.mp hmm
      have hpos := (mem_regsOf_iff_countReg_pos n evs).mp hmr
      have hle := hcnt1 n
      have hone : countReg n evs = 1 := by omega
      exact ⟨by rw [hcnt n, hone], hone⟩
    · exact absurd hmm hnot

theorem registerPartials_registers_once_witness :
    registerPartials 10 diamondFs "partials" diamondPage ⟨[], []⟩ =
      some (Except.ok diamondResult) ∧
    (∃ evs, diamondResult.trace = (PState.mk [] []).trace ++ evs ∧
      (∀ n, countReg n evs ≤ 1 ∧ countLoad n evs = countReg n evs) ∧
      (∀ n, n ∈ keysOf (PState.mk [] []).reg → countLoad n evs = 0 ∧ countReg n evs = 0) ∧
      (∀ n, n ∈ scanNames diamondPage → n ∉ keysOf (PState.mk [] []).reg →
        countLoad n evs = 1 ∧ countReg n evs = 1)) :=
  ⟨rfl, registerPartials_registers_once 10 diamondFs "partials" diamondPage ⟨[], []⟩
    diamondResult rfl⟩

/-! ## C2: a genuine inclusion cycle is not detected -/

/-- C2 counterexample: on the concrete two-partial cycle (`A` includes `B`,
`B` includes `A`, neither registered), `registerPartials` produces no outcome
at all for any recursion budget — in particular it never fails with a
`CyclicPartial` (or any other) error; it recurses unboundedly. -/
theorem registerPartials_cycle_never_returns :
    ¬ ∃ (fuel : Nat) (r : Except String PState),
      registerPartials fuel cycPartialsFs "partials" cycPageText ⟨[], []⟩ = some r := by
  rintro ⟨fuel, r, hr⟩
  rw [(cyc_run_diverges fuel []).1] at hr
  exact Option.noConfusion hr

/-- C2 amended: when the partial-inclusion graph contains a genuine cycle
(`A` includes `B` and `B` includes `A`, neither registered yet),
`registerPartials` performs no cycle detection and recurses unboundedly: for
every call-stack budget the run exhausts the budget without returning any
result or error. -/
theorem registerPartials_cycle_unbounded (fuel : Nat) :
    registerPartials fuel cycPartialsFs "partials" cycPageText ⟨[], []⟩ = none :=
  (cyc_run_diverges fuel []).1

/-! ## C5: dependencies are registered before their dependents -/

/-- C5: `registerPartials` works in post-order: whenever a successful run
registers a partial `n` with text `t`, every partial name that `t` itself
references was already in the registry at that moment — either present
before the call or registered earlier in the run's trace. -/
theorem registerPartials_postorder
    (fuel : Nat) (fs : List (String × String)) (ppath text : String) (st st' : PState)
    (h : registerPartials fuel fs ppath text st = some (Except.ok st')) :
    ∃ evs, st'.trace = st.trace ++ evs ∧
      ∀ pre n t post, evs = pre ++ Event.register n t :: post →
        ∀ m ∈ scanNames t, m ∈ keysOf st.reg ∨ m ∈ regsOf pre := by
  obtain ⟨hstep, _⟩ := registerPartials_ok fs ppath fuel text st st' h
  obtain ⟨evs, htr, _, hok, _⟩ := hstep
  exact ⟨evs, htr, fun pre n t post heq m hm => okFrom_postorder hok pre n t post heq m hm⟩

theorem registerPartials_postorder_witness :
    ∃ evs, diamondResult.trace = (PState.mk [] []).trace ++ evs ∧
      ∀ pre n t post, evs = pre ++ Event.register n t :: post →
        ∀ m ∈ scanNames t, m ∈ keysOf (PState.mk [] []).reg ∨ m ∈ regsOf pre :=
  registerPartials_postorder 10 diamondFs "partials" diamondPage ⟨[], []⟩ diamondResult rfl

/-! ## C8: the registries leak across consecutive compile runs -/

/-- C8 counterexample: two consecutive `compile` runs threading the
process-global Handlebars registry.  The second run does not start with an
empty registry: the partial `p` registered by the first run is still visible,
the second run performs no load or register event at all (its trace is
unchanged) even though its page references `p`, and rendering still sees the
first run's text `T1` although the partials directory now holds `T2`. -/
theorem compile_registry_not_fresh :
    compileModel 10 w8Run1 defaultOptions [] ⟨[], []⟩ [] = some out1C8 ∧
    compileModel 10 w8Run2 defaultOptions [] out1C8.pstate [] = some out2C8 ∧
    out1C8.pstate.reg ≠ [] ∧
    lookupKV "p" out2C8.pstate.reg = some "T1" ∧
    out2C8.pstate.trace = out1C8.pstate.trace := by
  refine ⟨rfl, rfl, ?_, rfl, rfl⟩
  decide

/-- C8 amended: the partial registry is process-global and is never cleared
between `compile` calls: any partial registered when an earlier run finished
is still registered when a later run starts, that later run never loads or
re-registers it, and looking it up still yields the earlier run's text. -/
theorem compile_partial_registry_persists
    {F : Type} (fuel₁ fuel₂ : Nat) (w₁ w₂ : World F) (opts₁ opts₂ : CompilerOptions)
    (hreg₁ hreg₂ : List (String × F)) (outFs₁ outFs₂ : List (String × String))
    (out₁ out₂ : CompileOut F) (n t : String)
    (_h1 : compileModel fuel₁ w₁ opts₁ hreg₁ ⟨[], []⟩ outFs₁ = some out₁)
    (hn : lookupKV n out₁.pstate.reg = some t)
    (h2 : compileModel fuel₂ w₂ opts₂ hreg₂ out₁.pstate outFs₂ = some out₂) :
    lookupKV n out₂.pstate.reg = some t ∧
    ∃ evs, out₂.pstate.trace = out₁.pstate.trace ++ evs ∧
      countLoad n evs = 0 ∧ countReg n evs = 0 := by
  have hstep := compileModel_pstep fuel₂ w₂ opts₂ hreg₂ out₁.pstate outFs₂ out₂ h2
  obtain ⟨evs, htr, ⟨added, hreg, hmap⟩, hok, hcnt⟩ := hstep
  have hnin : n ∈ keysOf out₁.pstate.reg :=
    (lookupKV_isSome_iff n out₁.pstate.reg).mp (by rw [hn]; rfl)
  have hld : countLoad n evs = 0 := okFrom_countLoad_zero hok hnin
  have hrg : countReg n evs = 0 := by
    rw [← hcnt n]
    exact hld
  have hnadded : n ∉ keysOf added := by
    unfold keysOf
    rw [hmap]
    intro hmm
    have := (mem_regsOf_iff_countReg_pos n evs).mp (List.mem_reverse.mp hmm)
    omega
  refine ⟨?_, evs, htr, hld, hrg⟩
  rw [hreg, lookupKV_append_of_not_mem n added out₁.pstate.reg hnadded, hn]

theorem compile_partial_registry_persists_witness :
    lookupKV "p" out2C8.pstate.reg = some "T1" ∧
    ∃ evs, out2C8.pstate.trace = out1C8.pstate.trace ++ evs ∧
      countLoad "p" evs = 0 ∧ countReg "p" evs = 0 :=
  compile_partial_registry_persists 10 10 w8Run1 w8Run2 defaultOptions defaultOptions
    [] [] [] [] out1C8 out2C8 "p" "T1" rfl rfl rfl

/-! ## Lookup lemmas for JS object construction -/

theorem lookupKV_setKV_self {α : Type} (k : String) (v : α) (l : List (String × α)) :
    lookupKV k (setKV k v l) = some v := by
  induction l with
  | nil => simp [setKV, lookupKV]
  | cons p rest ih =>
    obtain ⟨k', v'⟩ := p
    by_cases h : k' = k
    · subst h
      simp [setKV, lookupKV]
    · simp [setKV, lookupKV, h, ih]

theorem lookupKV_setKV_ne {α : Type} (k q : String) (v : α) (l : List (String × α))
    (h : q ≠ k) : lookupKV q (setKV k v l) = lookupKV q l := by
  induction l with
  | nil =>
    have h2 : ¬ (k = q) := fun he => h he.symm
    simp [setKV, lookupKV, h2]
  | cons p rest ih =>
    obtain ⟨k', v'⟩ := p
    by_cases hk : k' = k
    · subst hk
      have h2 : ¬ (k' = q) := fun he => h he.symm
      simp [setKV, lookupKV, h2]
    · simp only [setKV, if_neg hk, lookupKV]
      by_cases hq : k' = q
      · simp [hq]
      · simp [hq, ih]

theorem lookupKV_none_not_mem {α : Type} (k : String) (l : List (String × α))
    (h : lookupKV k l = none) : k ∉ keysOf l := by
  intro hmem
  have := (lookupKV_isSome_iff k l).mpr hmem
  rw [h] at this
  exact Bool.noConfusion this

theorem spreadInto_lookup_not_mem (base extra : List (String × Value)) (k : String)
    (h : k ∉ keysOf extra) : lookupKV k (spreadInto base extra) = lookupKV k base := by
  induction extra generalizing base with
  | nil => rfl
  | cons p rest ih =>
    obtain ⟨k₁, v₁⟩ := p
    have hne : k ≠ k₁ := fun he => h (by simp [keysOf, he])
    have hrest : k ∉ keysOf rest := fun hm => h (by
      simp only [keysOf, List.map_cons, List.mem_cons]
      exact Or.inr hm)
    show lookupKV k (spreadInto (setKV k₁ v₁ base) rest) = lookupKV k base
    rw [ih (setKV k₁ v₁ base) hrest, lookupKV_setKV_ne k₁ k v₁ base hne]

theorem spreadInto_lookup_mem (base extra : List (String × Value)) (k : String) (v : Value)
    (hnd : (keysOf extra).Nodup) (h : lookupKV k extra = some v) :
    lookupKV k (spreadInto base extra) = some v := by
  induction extra generalizing base with
  | nil => simp [lookupKV] at h
  | cons p rest ih =>
    obtain ⟨k₁, v₁⟩ := p
    simp only [keysOf, List.map_cons, List.nodup_cons] at hnd
    by_cases hk : k₁ = k
    · subst hk
      have hv : v₁ = v := by
        have h2 := h
        simp [lookupKV] at h2
        exact h2
      subst hv
      have hnot : k₁ ∉ keysOf rest := hnd.1
      show lookupKV k₁ (spreadInto (setKV k₁ v₁ base) rest) = some v₁
      rw [spreadInto_lookup_not_mem (setKV k₁ v₁ base) rest k₁ hnot,
        lookupKV_setKV_self]
    · simp only [lookupKV, if_neg hk] at h
      show lookupKV k (spreadInto (setKV k₁ v₁ base) rest) = some v
      exact ih (setKV k₁ v₁ base) (show (keysOf rest).Nodup from hnd.2) h

/-! ## C3: the render context merges page data over a `_shared` namespace -/

/-- C3: for every page, the render context places the page's own fields at
the top level and the shared record's fields under the reserved `_shared`
key: a page field `k` and a shared field `yeet` are addressable as `k` and
`_shared.yeet` in the same context, and when the page's own data has no
`_shared` field the injected namespace is not collided with (it maps exactly
to the shared record). -/
theorem renderContext_merges
    (shared page : List (String × Value)) (k : String) (v y : Value)
    (hnd : (keysOf page).Nodup)
    (hno : lookupKV "_shared" page = none)
    (hk : lookupKV k page = some v)
    (hy : lookupKV "yeet" shared = some y) :
    lookupKV k (renderContext (some (Value.obj shared)) (some (Value.obj page))) = some v ∧
    lookupKV "_shared" (renderContext (some (Value.obj shared)) (some (Value.obj page))) =
      some (Value.obj shared) ∧
    (∃ sh, lookupKV "_shared"
        (renderContext (some (Value.obj shared)) (some (Value.obj page))) =
        some (Value.obj sh) ∧ lookupKV "yeet" sh = some y) := by
  have hctx : renderContext (some (Value.obj shared)) (some (Value.obj page)) =
      spreadInto [("_shared", Value.obj shared)] page := rfl
  have hnot : "_shared" ∉ keysOf page := lookupKV_none_not_mem "_shared" page hno
  have hsh : lookupKV "_shared"
      (renderContext (some (Value.obj shared)) (some (Value.obj page))) =
      some (Value.obj shared) := by
    rw [hctx, spreadInto_lookup_not_mem _ page "_shared" hnot]
    simp [lookupKV]
  refine ⟨?_, hsh, shared, hsh, hy⟩
  rw [hctx]
  exact spreadInto_lookup_mem _ page k v hnd hk

theorem renderContext_merges_witness :
    lookupKV "key" (renderContext (some (Value.obj [("yeet", Value.str "yolo")]))
      (some (Value.obj [("key", Value.str "value")]))) = some (Value.str "value") ∧
    lookupKV "_shared" (renderContext (some (Value.obj [("yeet", Value.str "yolo")]))
      (some (Value.obj [("key", Value.str "value")]))) =
      some (Value.obj [("yeet", Value.str "yolo")]) ∧
    (∃ sh, lookupKV "_shared" (renderContext (some (Value.obj [("yeet", Value.str "yolo")]))
        (some (Value.obj [("key", Value.str "value")]))) = some (Value.obj sh) ∧
      lookupKV "yeet" sh = some (Value.str "yolo")) :=
  renderContext_merges [("yeet", Value.str "yolo")] [("key", Value.str "value")]
    "key" (Value.str "value") (Value.str "yolo") (by simp [keysOf]) rfl rfl rfl

/-! ## C4: data-file lookup cardinality -/

/-- C4: for every directory listing and logical name, `getData` with zero
matching files returns absence (`none`) without an error; with two or more
matching files it fails with an error naming the logical name; and with
exactly one match it decodes that file with the decoder selected by its
extension. -/
theorem getData_cardinality
    (jsonParse yamlParse : String → Except String Value) (markedRender : String → String)
    (fs : List (String × String)) (dataPath pageName : String) :
    (findDataFiles fs dataPath pageName = [] →
      getData jsonParse yamlParse markedRender fs dataPath pageName = Except.ok none) ∧
    (∀ p text rest, findDataFiles fs dataPath pageName = (p, text) :: rest → rest ≠ [] →
      getData jsonParse yamlParse markedRender fs dataPath pageName =
        Except.error ("Found more than one data file for '" ++ pageName ++ "'.")) ∧
    (∀ p text, findDataFiles fs dataPath pageName = [(p, text)] →
      getData jsonParse yamlParse markedRender fs dataPath pageName =
        (parseData jsonParse yamlParse markedRender text (extOf p)).map some) := by
  refine ⟨?_, ?_, ?_⟩
  · intro h
    simp [getData, h]
  · intro p text rest h hne
    cases rest with
    | nil => exact absurd rfl hne
    | cons r2 rest2 => simp [getData, h]
  · intro p text h
    simp [getData, h]

theorem getData_cardinality_witness :
    (getData (fun _ => Except.ok (Value.obj [])) (fun _ => Except.ok (Value.obj []))
      (fun s => s) [] "data" "page" = Except.ok none) ∧
    (getData (fun _ => Except.ok (Value.obj [])) (fun _ => Except.ok (Value.obj []))
      (fun s => s) [("data/page.json", "\x7b\x7d"), ("data/page.yml", "a: 1")]
      "data" "page" =
      Except.error "Found more than one data file for 'page'.") ∧
    (getData (fun _ => Except.ok (Value.obj [])) (fun _ => Except.ok (Value.obj []))
      (fun s => s) [("data/page.json", "\x7b\x7d")] "data" "page" =
      (parseData (fun _ => Except.ok (Value.obj [])) (fun _ => Except.ok (Value.obj []))
        (fun s => s) "\x7b\x7d" (extOf "data/page.json")).map some) := by
  refine ⟨?_, ?_, ?_⟩
  · exact (getData_cardinality _ _ _ [] "data" "page").1 rfl
  · exact (getData_cardinality _ _ _ _ "data" "page").2.1 "data/page.json" "\x7b\x7d"
      [("data/page.yml", "a: 1")] rfl (by simp)
  · exact (getData_cardinality _ _ _ _ "data" "page").2.2 "data/page.json" "\x7b\x7d" rfl

/-! ## C9: markdown data is wrapped under `_md` -/

/-- C9: for every markdown-family data file (`.md`, `.markdown`), `parseData`
yields an object whose single field `_md` holds the rendered (and trimmed)
HTML as one string — not the document as a key/value map and not the raw
string directly. -/
theorem parseData_markdown_wraps
    (jsonParse yamlParse : String → Except String Value) (markedRender : String → String)
    (rawData : String) :
    parseData jsonParse yamlParse markedRender rawData ".md" =
      Except.ok (Value.obj [("_md", Value.str (jsTrim (markedRender rawData)))]) ∧
    parseData jsonParse yamlParse markedRender rawData ".markdown" =
      Except.ok (Value.obj [("_md", Value.str (jsTrim (markedRender rawData)))]) :=
  ⟨rfl, rfl⟩

/-! ## C6: the output collision policy -/

/-- C6: writing a page whose destination file already exists fails with an
error naming the page when `overwrite` is off, and succeeds, truncating and
replacing the existing file, when `overwrite` is on. -/
theorem writePage_collision_policy
    (opts : CompilerOptions) (pageName pageText old : String)
    (fs : List (String × String))
    (hex : lookupKV (opts.dest ++ "/" ++ pageName ++ ".html") fs = some old) :
    (opts.overwrite = false →
      writePage opts pageName pageText fs =
        Except.error ("Could not write " ++ pageName ++
          ".html: file exists. Try enabling the overwrite option.")) ∧
    (opts.overwrite = true →
      writePage opts pageName pageText fs =
        Except.ok (setKV (opts.dest ++ "/" ++ pageName ++ ".html") pageText fs) ∧
      lookupKV (opts.dest ++ "/" ++ pageName ++ ".html")
        (setKV (opts.dest ++ "/" ++ pageName ++ ".html") pageText fs) = some pageText) := by
  constructor
  · intro hov
    simp [writePage, writeFileFlagged, hov, hex]
  · intro hov
    refine ⟨by simp [writePage, writeFileFlagged, hov], ?_⟩
    exact lookupKV_setKV_self _ _ _

theorem writePage_collision_policy_witness :
    (writePage defaultOptions "page" "new" [("dist/page.html", "old")] =
      Except.error "Could not write page.html: file exists. Try enabling the overwrite option.") ∧
    (writePage { defaultOptions with overwrite := true } "page" "new"
        [("dist/page.html", "old")] =
      Except.ok [("dist/page.html", "new")] ∧
    lookupKV "dist/page.html" [("dist/page.html", "new")] = some "new") := by
  constructor
  · exact (writePage_collision_policy defaultOptions "page" "new" "old"
      [("dist/page.html", "old")] rfl).1 rfl
  · exact (writePage_collision_policy { defaultOptions with overwrite := true }
      "page" "new" "old" [("dist/page.html", "old")] rfl).2 rfl

/-! ## C10: same-stem helper files are silently resolved, `.ts` last -/

/-- C10: when the helpers directory holds both `name.js` and `name.ts` for
the same stem and TypeScript support is enabled, helper registration raises
no ambiguity error: both files are imported (in that order) and registered
under the same stem, with the `.ts` helper registered after — and therefore
shadowing — the `.js` helper in the registry. -/
theorem helpers_same_stem_ts_replaces_js
    {F : Type} (load : String → Except String F) (fj ft : F)
    (hj : load "src/helpers/name.js" = Except.ok fj)
    (ht : load "src/helpers/name.ts" = Except.ok ft) :
    helpersPhase (w10 load) opts10 [] =
      (Except.ok (), [("name", ft), ("name", fj)],
        ["src/helpers/name.js", "src/helpers/name.ts"]) ∧
    lookupKV "name" [("name", ft), ("name", fj)] = some ft := by
  have hred : helpersPhase (w10 load) opts10 [] =
      registerHelpersLoop load ["src/helpers/name.js", "src/helpers/name.ts"] [] [] := rfl
  constructor
  · rw [hred]
    simp only [registerHelpersLoop, hj, ht]
    rfl
  · rfl

theorem helpers_same_stem_ts_replaces_js_witness :
    helpersPhase (w10 (fun p => Except.ok p)) opts10 [] =
      (Except.ok (), [("name", "src/helpers/name.ts"), ("name", "src/helpers/name.js")],
        ["src/helpers/name.js", "src/helpers/name.ts"]) ∧
    lookupKV "name" [("name", "src/helpers/name.ts"), ("name", "src/helpers/name.js")] =
      some "src/helpers/name.ts" :=
  helpers_same_stem_ts_replaces_js (fun p => Except.ok p)
    "src/helpers/name.js" "src/helpers/name.ts" rfl rfl

/-! ## C7: no output is written unless every page rendered -/

theorem compileAfterRenders_post_failure {F : Type} (w : World F) (opts : CompilerOptions)
    (hreg1 : List (String × F)) (imports : List String) (pst1 : PState)
    (outFs renders : List (String × String)) (e : String)
    (hpost : postPhase w renders = Except.error e) :
    compileAfterRenders w opts hreg1 imports pst1 outFs renders =
      ⟨Except.error e, outFs, hreg1, imports, pst1⟩ := by
  unfold compileAfterRenders
  rw [hpost]

theorem compileWithPages_abort {F : Type} (fuel : Nat) (w : World F)
    (opts : CompilerOptions) (hreg1 : List (String × F)) (imports : List String)
    (pst pst1 : PState) (outFs : List (String × String)) (sharedData : Option Value)
    (pagePaths : List (String × String)) (e : String)
    (hpages : pagePaths ≠ [])
    (hfail : rendersPhase fuel w opts hreg1 sharedData pagePaths [] pst =
        some (Except.error e, pst1) ∨
      (∃ renders, rendersPhase fuel w opts hreg1 sharedData pagePaths [] pst =
        some (Except.ok renders, pst1) ∧ postPhase w renders = Except.error e)) :
    compileWithPages fuel w opts hreg1 imports pst outFs sharedData pagePaths =
      some ⟨Except.error e, outFs, hreg1, imports, pst1⟩ := by
  have hne : ¬ (pagePaths.length < 1) := by
    intro hlt
    exact hpages (List.length_eq_zero.mp (by omega))
  unfold compileWithPages
  rw [if_neg hne]
  rcases hfail with hf | ⟨renders, hf, hpost⟩
  · rw [hf]
  · rw [hf]
    show some (compileAfterRenders w opts hreg1 imports pst1 outFs renders) = _
    rw [compileAfterRenders_post_failure w opts hreg1 imports pst1 outFs renders e hpost]

/-- C7: in every run of `compile`, failure of any page's render — or of its
post-processing — aborts the run before the write phase: the result is that
error and the destination file map is exactly what it was before the run
(zero files written by this run). -/
theorem compile_no_writes_before_renders
    {F : Type} (fuel : Nat) (w : World F) (opts : CompilerOptions)
    (hreg hreg1 : List (String × F)) (imports : List String) (pst pst1 : PState)
    (outFs : List (String × String)) (sharedData : Option Value) (e : String)
    (hhp : helpersPhase w opts hreg = (Except.ok (), hreg1, imports))
    (hsd : getData w.jsonParse w.yamlParse w.markedRender w.dataFs
      (w.srcPath ++ "/data") "_shared" = Except.ok sharedData)
    (hpages : pagesGlob w ≠ [])
    (hfail : rendersPhase fuel w opts hreg1 sharedData (pagesGlob w) [] pst =
        some (Except.error e, pst1) ∨
      (∃ renders, rendersPhase fuel w opts hreg1 sharedData (pagesGlob w) [] pst =
        some (Except.ok renders, pst1) ∧ postPhase w renders = Except.error e)) :
    compileModel fuel w opts hreg pst outFs =
      some ⟨Except.error e, outFs, hreg1, imports, pst1⟩ := by
  simp only [compileModel, hhp, hsd]
  exact compileWithPages_abort fuel w opts hreg1 imports pst pst1 outFs sharedData
    (pagesGlob w) e hpages hfail

theorem compile_no_writes_before_renders_witness :
    compileModel 10 w7 defaultOptions [] ⟨[], []⟩ [("dist/other.html", "kept")] =
      some ⟨Except.error "An error occurred while rendering page 'index':\nboom",
        [("dist/other.html", "kept")], [], [],
        ⟨[("p", "T1")], [Event.load "p", Event.register "p" "T1"]⟩⟩ :=
  compile_no_writes_before_renders 10 w7 defaultOptions [] [] [] ⟨[], []⟩
    ⟨[("p", "T1")], [Event.load "p", Event.register "p" "T1"]⟩
    [("dist/other.html", "kept")] none
    "An error occurred while rendering page 'index':\nboom" rfl rfl (by decide) (Or.inl rfl)

end MicroSSG
